import Mathlib

set_option maxRecDepth 8192

namespace PyBench

/-! Shallow embedding of the response-evaluation pipeline and per-model
aggregation of `src/benchmark.py`.  The Python/stdlib operations the source
relies on — `json.loads`, `json.dumps`, `str.strip`, `str.replace`,
`str.lower`, substring tests with `in`, the regex scan used in
`parse_json_response`, and `statistics.mean` — are modelled as executable
Lean functions below.  Machine floats never undergo arithmetic in the
evaluation pipeline; a Python float is therefore identified by its decimal
string form (`str(f)`), and latencies are modelled as rationals. -/

/-- JSON-like values as produced by Python's `json.loads`: strings, ints,
floats (identified by their decimal string form), booleans, null, arrays,
and objects.  Objects are insertion-ordered key/value lists, mirroring
Python dicts. -/
inductive JVal where
  | jstr (s : String)
  | jint (n : Int)
  | jfloat (r : String)
  | jbool (b : Bool)
  | jnull
  | jarr (elems : List JVal)
  | jobj (fields : List (String × JVal))

/-- Opening brace character. -/
def openBraceC : Char := '\x7b'

/-- Closing brace character. -/
def closeBraceC : Char := '\x7d'

/-- Whitespace characters stripped by Python's `str.strip()` (ASCII part). -/
def isPyWs (c : Char) : Bool :=
  c = ' ' || c = '\t' || c = '\n' || c = '\r' || c = '\x0b' || c = '\x0c'

/-- Whitespace accepted between tokens by Python's `json` module. -/
def isJsonWsC (c : Char) : Bool :=
  c = ' ' || c = '\t' || c = '\n' || c = '\r'

/-- Drop JSON whitespace from the front of a character list. -/
def skipWsC (l : List Char) : List Char := l.dropWhile isJsonWsC

/-- Strip Python whitespace from the front of a character list. -/
def trimLeadC (l : List Char) : List Char := l.dropWhile isPyWs

/-- Strip Python whitespace from the back of a character list. -/
def trimTrailC (l : List Char) : List Char := (l.reverse.dropWhile isPyWs).reverse

/-- Model of Python's `str.strip()` (on the ASCII whitespace set). -/
def pyStripL (l : List Char) : List Char := trimTrailC (trimLeadC l)

/-- Model of Python's `str.strip()` on strings. -/
def pyStrip (s : String) : String := String.mk (pyStripL s.data)

/-- The literal six-backtick pattern removed by
`t.replace("``````", "")` in `parse_json_response`. -/
def backticks6 : List Char := "``````".data

/-- Left-to-right, non-overlapping removal of the six-backtick pattern,
modelling Python's `str.replace(old, "")`.  The fuel is the input length. -/
def removeTicks : Nat → List Char → List Char
  | 0, _ => []
  | _ + 1, [] => []
  | f + 1, c :: t =>
    if backticks6.isPrefixOf (c :: t) then removeTicks f ((c :: t).drop 6)
    else c :: removeTicks f t

/-- Model of `t.replace("``````", "")` on strings. -/
def pyReplaceTicks (s : String) : String :=
  String.mk (removeTicks s.data.length s.data)

/-- Scan for the first closing brace, returning everything up to and
including it.  Used to model the non-greedy tail of the regex scan. -/
def takeThroughClose : List Char → Option (List Char)
  | [] => none
  | c :: t =>
    if c = closeBraceC then some [c]
    else (takeThroughClose t).map (fun r => c :: r)

/-- Model of `re.search` for the pattern "opening brace, any characters
(non-greedy), closing brace": the leftmost match starts at the first
opening brace that is followed by a closing brace, and ends at the nearest
closing brace after it. -/
def extractBrace : List Char → Option (List Char)
  | [] => none
  | c :: t =>
    if c = openBraceC then
      match takeThroughClose t with
      | some body => some (c :: body)
      | none => extractBrace t
    else extractBrace t

/-- Decide whether a character is an ASCII digit. -/
def isDigitC (c : Char) : Bool := '0' ≤ c && c ≤ '9'

/-- Numeric value of an ASCII digit. -/
def digitToNat (c : Char) : Nat := c.toNat - 48

/-- Numeric value of a hexadecimal digit, if any. -/
def hexToNat? (c : Char) : Option Nat :=
  if '0' ≤ c && c ≤ '9' then some (c.toNat - 48)
  else if 'a' ≤ c && c ≤ 'f' then some (c.toNat - 87)
  else if 'A' ≤ c && c ≤ 'F' then some (c.toNat - 55)
  else none

/-- Parse exactly four hexadecimal digits. -/
def parseHex4 : List Char → Option (Nat × List Char)
  | a :: b :: c :: d :: rest =>
    match hexToNat? a, hexToNat? b, hexToNat? c, hexToNat? d with
    | some x, some y, some z, some w => some (x * 4096 + y * 256 + z * 16 + w, rest)
    | _, _, _, _ => none
  | _ => none

/-- Prepend a character to the pending string-content result. -/
def consStrRes (c : Char) (r : Option (List Char × List Char)) :
    Option (List Char × List Char) :=
  r.map (fun p => (c :: p.1, p.2))

/-- Decode one \\uXXXX escape after the backslash-u prefix, combining a
high/low surrogate pair into one code point as Python's `json` does.  Lone
surrogates are rejected (they have no counterpart in Lean strings). -/
def parseUEscLow (t3 : List Char) (n1 : Nat) : Option (Char × List Char) :=
  match t3 with
  | b1 :: b2 :: t4 =>
    if b1 = '\\' && b2 = 'u' then
      match parseHex4 t4 with
      | some (n2, t5) =>
        if 56320 ≤ n2 && n2 < 57344 then
          some (Char.ofNat (65536 + (n1 - 55296) * 1024 + (n2 - 56320)), t5)
        else none
      | none => none
    else none
  | _ => none

/-- Decode one \\uXXXX escape after the backslash-u prefix, combining a
high surrogate with a following low-surrogate escape. -/
def parseUEsc (t2 : List Char) : Option (Char × List Char) :=
  match parseHex4 t2 with
  | none => none
  | some (n1, t3) =>
    if 55296 ≤ n1 && n1 < 56320 then parseUEscLow t3 n1
    else if 56320 ≤ n1 && n1 < 57344 then none
    else some (Char.ofNat n1, t3)

/-- Parse the body of a JSON string after the opening quote, handling the
escape sequences of Python's `json` module (including surrogate pairs) and
rejecting raw control characters, as the strict decoder does. -/
def parseStrChars : Nat → List Char → Option (List Char × List Char)
  | 0, _ => none
  | _ + 1, [] => none
  | f + 1, c :: t =>
    if c = '"' then some ([], t)
    else if c = '\\' then
      match t with
      | [] => none
      | e :: t2 =>
        if e = '"' then consStrRes '"' (parseStrChars f t2)
        else if e = '\\' then consStrRes '\\' (parseStrChars f t2)
        else if e = '/' then consStrRes '/' (parseStrChars f t2)
        else if e = 'b' then consStrRes '\x08' (parseStrChars f t2)
        else if e = 'f' then consStrRes '\x0c' (parseStrChars f t2)
        else if e = 'n' then consStrRes '\n' (parseStrChars f t2)
        else if e = 'r' then consStrRes '\r' (parseStrChars f t2)
        else if e = 't' then consStrRes '\t' (parseStrChars f t2)
        else if e = 'u' then
          match parseUEsc t2 with
          | some (ch, t3) => consStrRes ch (parseStrChars f t3)
          | none => none
        else none
    else if c.toNat < 32 then none
    else consStrRes c (parseStrChars f t)

/-- Take a maximal run of ASCII digits. -/
def takeDigits : List Char → List Char × List Char
  | [] => ([], [])
  | c :: t =>
    if isDigitC c then
      let p := takeDigits t
      (c :: p.1, p.2)
    else ([], c :: t)

/-- Parse the integer part of a JSON number (after any sign): a single
zero, or a nonzero digit followed by more digits. -/
def parseIntPart : List Char → Option (List Char × List Char)
  | [] => none
  | c :: t =>
    if c = '0' then some ([c], t)
    else if isDigitC c then
      let p := takeDigits t
      some (c :: p.1, p.2)
    else none

/-- Parse an optional fraction part.  As with the regex used by Python's
`json`, a dot not followed by a digit is simply not part of the number. -/
def parseFrac (l : List Char) : List Char × List Char :=
  match l with
  | c :: t =>
    if c = '.' then
      match takeDigits t with
      | ([], _) => ([], l)
      | (ds, r) => ('.' :: ds, r)
    else ([], l)
  | [] => ([], [])

/-- Parse an optional exponent part; an exponent marker without digits is
not part of the number. -/
def parseExpPart (l : List Char) : List Char × List Char :=
  match l with
  | c :: t =>
    if c = 'e' || c = 'E' then
      match t with
      | s :: t2 =>
        if s = '+' || s = '-' then
          match takeDigits t2 with
          | ([], _) => ([], l)
          | (ds, r) => (c :: s :: ds, r)
        else
          match takeDigits t with
          | ([], _) => ([], l)
          | (ds, r) => (c :: ds, r)
      | [] => ([], l)
    else ([], l)
  | [] => ([], [])

/-- Decimal value of a digit run. -/
def valOfDigits (l : List Char) : Nat :=
  l.foldl (fun a c => a * 10 + digitToNat c) 0

/-- Continuation of number parsing after the integer part: read the
optional fraction and exponent parts; with neither present the number is
an int, otherwise a float identified by the matched literal. -/
def parseNumAfterInt (sgn : Bool) (ip r1 : List Char) : Option (JVal × List Char) :=
  let fp := parseFrac r1
  let ep := parseExpPart fp.2
  if fp.1 = [] ∧ ep.1 = [] then
    let n : Int := Int.ofNat (valOfDigits ip)
    some (.jint (if sgn then -n else n), ep.2)
  else
    let lit := (if sgn then ['-'] else []) ++ ip ++ fp.1 ++ ep.1
    some (.jfloat (String.mk lit), ep.2)

/-- Parse a JSON number.  A number with a fraction or exponent part is a
float (identified by the matched literal, as Python keeps `repr`-faithful
floats for such literals); otherwise it is an int. -/
def parseNumberCore (l : List Char) : Option (JVal × List Char) :=
  let sl : Bool × List Char :=
    match l with
    | c :: t => if c = '-' then (true, t) else (false, c :: t)
    | [] => (false, [])
  match parseIntPart sl.2 with
  | none => none
  | some (ip, r1) => parseNumAfterInt sl.1 ip r1

/-- Insert a key/value pair with Python-dict semantics: an existing key
keeps its position and gets the new value; a new key is appended. -/
def dictInsert (fs : List (String × JVal)) (k : String) (v : JVal) :
    List (String × JVal) :=
  if fs.any (fun p => p.1 == k) then
    fs.map (fun p => if p.1 == k then (k, v) else p)
  else fs ++ [(k, v)]

/-- Whether a character list starts with an upper-case I, the only
continuation on which a leading minus sign is not a number sign (the
`-Infinity` literal of Python's decoder). -/
def headIsUpperI (l : List Char) : Bool :=
  match l with
  | c :: _ => c = 'I'
  | [] => false

/-- Mode of the recursive-descent JSON scanner: a value, the members of an
object (with the fields accumulated so far), or the elements of an array. -/
inductive PMode where
  | pv
  | pm (acc : List (String × JVal))
  | pe (acc : List JVal)

/-- Fuel-based recursive-descent scanner modelling Python's `json` decoder.
Mode `pv` parses one value (skipping leading whitespace); `pm acc` parses
the members of an object from the first key onwards; `pe acc` parses the
elements of an array from the next value onwards. -/
def parseRec : Nat → PMode → List Char → Option (JVal × List Char)
  | 0, _, _ => none
  | f + 1, PMode.pv, l0 =>
    let l := skipWsC l0
    match l with
    | [] => none
    | c :: t =>
      if c = '"' then
        match parseStrChars (t.length + 1) t with
        | some (cs, r) => some (.jstr (String.mk cs), r)
        | none => none
      else if c = openBraceC then
        let t1 := skipWsC t
        match t1 with
        | d :: t2 => if d = closeBraceC then some (.jobj [], t2) else parseRec f (.pm []) t1
        | [] => none
      else if c = '[' then
        let t1 := skipWsC t
        match t1 with
        | d :: t2 => if d = ']' then some (.jarr [], t2) else parseRec f (.pe []) t1
        | [] => none
      else if c = 't' then
        match l with
        | 't' :: 'r' :: 'u' :: 'e' :: r => some (.jbool true, r)
        | _ => none
      else if c = 'f' then
        match l with
        | 'f' :: 'a' :: 'l' :: 's' :: 'e' :: r => some (.jbool false, r)
        | _ => none
      else if c = 'n' then
        match l with
        | 'n' :: 'u' :: 'l' :: 'l' :: r => some (.jnull, r)
        | _ => none
      else if c = 'N' then
        match l with
        | 'N' :: 'a' :: 'N' :: r => some (.jfloat "nan", r)
        | _ => none
      else if c = 'I' then
        match l with
        | 'I' :: 'n' :: 'f' :: 'i' :: 'n' :: 'i' :: 't' :: 'y' :: r =>
          some (.jfloat "inf", r)
        | _ => none
      else if c = '-' && headIsUpperI t then
        match l with
        | '-' :: 'I' :: 'n' :: 'f' :: 'i' :: 'n' :: 'i' :: 't' :: 'y' :: r =>
          some (.jfloat "-inf", r)
        | _ => none
      else if c = '-' || isDigitC c then parseNumberCore l
      else none
  | f + 1, PMode.pm acc, l =>
    match l with
    | c :: t =>
      if c = '"' then
        match parseStrChars (t.length + 1) t with
        | some (kcs, r1) =>
          match skipWsC r1 with
          | ':' :: r3 =>
            match parseRec f .pv r3 with
            | some (v, r4) =>
              let acc2 := dictInsert acc (String.mk kcs) v
              match skipWsC r4 with
              | ',' :: r6 => parseRec f (.pm acc2) (skipWsC r6)
              | d :: r6 => if d = closeBraceC then some (.jobj acc2, r6) else none
              | [] => none
            | none => none
          | _ => none
        | none => none
      else none
    | [] => none
  | f + 1, PMode.pe acc, l =>
    match parseRec f .pv l with
    | some (v, r) =>
      match skipWsC r with
      | ',' :: r3 => parseRec f (.pe (acc ++ [v])) r3
      | c :: r3 => if c = ']' then some (.jarr (acc ++ [v]), r3) else none
      | [] => none
    | none => none

/-- Model of Python's `json.loads`: parse one value, allow trailing
whitespace, and fail (`none`, standing for a raised exception) on anything
else. -/
def jsonLoads (s : String) : Option JVal :=
  match parseRec (s.data.length + 1) .pv s.data with
  | some (v, rest) => if skipWsC rest = [] then some v else none
  | none => none

/-- Keep a parse result only when it is a mapping, mirroring the
`isinstance(obj, dict)` checks of `parse_json_response`. -/
def objOf : Option JVal → Option (List (String × JVal))
  | some (.jobj fs) => some fs
  | _ => none

/-- Second stage of `parse_json_response`: remove the six-backtick
pattern, strip, scan for the first brace-delimited span, and return its
parse when that parse yields a mapping. -/
def braceFallback (t : String) : Option (List (String × JVal)) :=
  let tClean := pyStrip (pyReplaceTicks t)
  match extractBrace tClean.data with
  | some sub => objOf (jsonLoads (String.mk sub))
  | none => none

/-- Embedding of `parse_json_response` (src/benchmark.py lines 105-126):
empty input is unparseable; otherwise strip and try a direct parse,
returning the result when it is a mapping; otherwise fall back to the
brace-scan stage.  A parse error or a non-mapping parse in the fallback
yields `none`, exactly as both code paths there end in `return None`. -/
def parse_json_response (text : String) : Option (List (String × JVal)) :=
  if text = "" then none
  else
    let t := pyStrip text
    match objOf (jsonLoads t) with
    | some fs => some fs
    | none => braceFallback t

/-- Variant of `parse_json_response` taking an optional input: Python's
`if not text` treats an absent (None) input exactly like the empty
string, returning None without touching the rest of the body. -/
def parseJsonResponseOpt (text : Option String) : Option (List (String × JVal)) :=
  match text with
  | none => none
  | some s => parse_json_response s

/-- Category tags of the three test cases. -/
inductive Category where
  | LOGIC
  | MATH
  | CODING
deriving DecidableEq

/-- Test-case record: id, category and expected keyword.  The prompt text
is an opaque payload handed to the generation client and never consulted
by the parsing, evaluation, or aggregation logic, so it is omitted from
the embedding. -/
structure TestCase where
  id : String
  category : Category
  expected_keyword : String

/-- The LOGIC test case of the registry. -/
def tcLogic : TestCase := ⟨"test_logic_ad_hominem", .LOGIC, "Ad Hominem"⟩

/-- The MATH test case of the registry. -/
def tcMath : TestCase := ⟨"test_math_bayes_theorem", .MATH, "0.625"⟩

/-- The CODING test case of the registry. -/
def tcCoding : TestCase := ⟨"test_code_max_path_sum", .CODING, "maxPathSum"⟩

/-- The fixed test registry (src/benchmark.py lines 71-90). -/
def TEST_CASES : List TestCase := [tcLogic, tcMath, tcCoding]

/-- Model of Python's `str.lower()` (ASCII case folding, which is all the
pipeline's keywords and JSON text exercise). -/
def strLower (s : String) : String := String.mk (s.data.map Char.toLower)

/-- Decide whether `needle` occurs as a contiguous run inside `hay`. -/
def hasSubstr (hay needle : List Char) : Bool :=
  match hay with
  | [] => needle.isEmpty
  | _ :: t => needle.isPrefixOf hay || hasSubstr t needle

/-- Model of Python's substring test `needle in hay`. -/
def strContains (hay needle : String) : Bool := hasSubstr hay.data needle.data

/-- Decimal digits of a natural number, least significant first.  The fuel
argument keeps the recursion structural; `n + 1` fuel always suffices. -/
def natDigitsAux : Nat → Nat → List Char
  | 0, _ => []
  | f + 1, n =>
    if n < 10 then [Char.ofNat (48 + n)]
    else Char.ofNat (48 + n % 10) :: natDigitsAux f (n / 10)

/-- Model of Python's `str(n)` for a natural number. -/
def natRepr (n : Nat) : String := String.mk (natDigitsAux (n + 1) n).reverse

/-- Model of Python's `str(n)` for an int. -/
def intRepr (n : Int) : String :=
  if n < 0 then "-" ++ natRepr n.natAbs else natRepr n.natAbs

/-- Model of Python's `str(b)` for a bool. -/
def pyBoolStr (b : Bool) : String := if b then "True" else "False"

/-- One structured-matching step of `check_correctness` (lines 134-138):
a string value matches when it contains the lowered keyword
case-insensitively; an int, float, or bool value — Python's
`isinstance(val, (int, float))` also catches booleans — matches when its
`str()` form contains the lowered keyword verbatim. -/
def valMatches (expectedL : String) (v : JVal) : Bool :=
  match v with
  | .jstr s => strContains (strLower s) expectedL
  | .jint n => strContains (intRepr n) expectedL
  | .jfloat r => strContains r expectedL
  | .jbool b => strContains (pyBoolStr b) expectedL
  | _ => false

/-- Embedding of `check_correctness` (src/benchmark.py lines 128-141):
lower the expected keyword, scan the mapping values in order for a match,
and otherwise fall back to a case-insensitive substring test on the raw
text.  An absent mapping (or an empty one, falsy in Python) skips the
structured scan. -/
def check_correctness (tc : TestCase) (response_obj : Option (List (String × JVal)))
    (raw_text : String) : Bool :=
  let expected := strLower tc.expected_keyword
  let structured :=
    match response_obj with
    | some fs => fs.any (fun p => valMatches expected p.2)
    | none => false
  structured || strContains (strLower raw_text) expected

/-- Result of one generation call, as consumed by `main`: success flag,
latency, and the response text (present on success). -/
structure GenResult where
  success : Bool
  latency : ℚ
  response : Option String

/-- Per-model running statistics (the `model_stats` dict of `main`). -/
structure ModelStats where
  logic_pass : Bool
  math_pass : Bool
  code_pass : Bool
  avg_latency : ℚ
  latencies : List ℚ

/-- Initial per-model statistics (src/benchmark.py lines 207-214). -/
def initStats : ModelStats := ⟨false, false, false, 0, []⟩

/-- Pass verdict for one test case: on success, parse the response and
evaluate it; a failed generation is never evaluated and yields `false`
(`passed = False` at line 230 is only overwritten inside the success
branch). -/
def passedOf (gen : TestCase → GenResult) (tc : TestCase) : Bool :=
  let res := gen tc
  if res.success then
    let text := res.response.getD ""
    check_correctness tc (parse_json_response text) text
  else false

/-- One iteration of the inner loop of `main` (lines 216-238): append the
latency sample only on success, and store the verdict into the flag of the
test's category. -/
def stepTest (gen : TestCase → GenResult) (s : ModelStats) (tc : TestCase) :
    ModelStats :=
  let res := gen tc
  let s1 :=
    if res.success then { s with latencies := s.latencies ++ [res.latency] } else s
  let p := passedOf gen tc
  match tc.category with
  | .LOGIC => { s1 with logic_pass := p }
  | .MATH => { s1 with math_pass := p }
  | .CODING => { s1 with code_pass := p }

/-- Arithmetic mean, modelling `statistics.mean`. -/
def meanQ (l : List ℚ) : ℚ := l.sum / l.length

/-- Per-model aggregation (lines 216-245): fold the three test cases and
then set the average latency to the mean of the collected samples when at
least one was collected (it stays at its initial 0.0 otherwise). -/
def runModel (gen : TestCase → GenResult) : ModelStats :=
  let s := TEST_CASES.foldl (stepTest gen) initStats
  if s.latencies = [] then s else { s with avg_latency := meanQ s.latencies }

/-- Pass flag of a given category. -/
def categoryPass (s : ModelStats) : Category → Bool
  | .LOGIC => s.logic_pass
  | .MATH => s.math_pass
  | .CODING => s.code_pass

/-- Total score of a model as written to the summary CSV (line 254):
the sum of its three boolean flags. -/
def totalScore (s : ModelStats) : Nat :=
  (cond s.logic_pass 1 0) + (cond s.math_pass 1 0) + (cond s.code_pass 1 0)

/-! Model of `json.dumps` with its default options (separators ", " and
": ", `ensure_ascii=True`), used to state the parser round-trip claim. -/

/-- Lower-case hexadecimal digit of a nibble. -/
def hexDigitC (n : Nat) : Char :=
  if n < 10 then Char.ofNat (48 + n) else Char.ofNat (87 + n)

/-- Four hexadecimal digits of a value below 2^16. -/
def hex4 (n : Nat) : List Char :=
  [hexDigitC (n / 4096 % 16), hexDigitC (n / 256 % 16),
   hexDigitC (n / 16 % 16), hexDigitC (n % 16)]

/-- Unicode escape of a code point: one \\uXXXX sequence below 2^16, a
surrogate pair above (as `json.dumps` emits with `ensure_ascii`). -/
def uEscape (n : Nat) : List Char :=
  if n < 65536 then '\\' :: 'u' :: hex4 n
  else '\\' :: 'u' :: hex4 (55296 + (n - 65536) / 1024) ++
       '\\' :: 'u' :: hex4 (56320 + (n - 65536) % 1024)

/-- Escape of one character inside a dumped JSON string: the two-character
escapes for quote, backslash and the five shorthand controls, \\uXXXX for
other controls and for everything outside printable ASCII. -/
def escChar (c : Char) : List Char :=
  if c = '"' then ['\\', '"']
  else if c = '\\' then ['\\', '\\']
  else if c = '\n' then ['\\', 'n']
  else if c = '\t' then ['\\', 't']
  else if c = '\r' then ['\\', 'r']
  else if c = '\x08' then ['\\', 'b']
  else if c = '\x0c' then ['\\', 'f']
  else if c.toNat < 32 then uEscape c.toNat
  else if c.toNat < 127 then [c]
  else uEscape c.toNat

/-- Escape of a character list. -/
def escList (cs : List Char) : List Char := (cs.map escChar).flatten

/-- Dumped form of a JSON string, quotes included. -/
def dumpsStr (s : String) : List Char := '"' :: escList s.data ++ ['"']

mutual

/-- Model of `json.dumps` with default separators. -/
def dumpsV : JVal → List Char
  | .jstr s => dumpsStr s
  | .jint n => (intRepr n).data
  | .jfloat r => r.data
  | .jbool b => if b then "true".data else "false".data
  | .jnull => "null".data
  | .jarr xs => '[' :: dumpsElems xs ++ [']']
  | .jobj fs => openBraceC :: dumpsFields fs ++ [closeBraceC]

/-- Dumped members of an object, separated by ", ". -/
def dumpsFields : List (String × JVal) → List Char
  | [] => []
  | [(k, v)] => dumpsStr k ++ ':' :: ' ' :: dumpsV v
  | (k, v) :: p :: t =>
    dumpsStr k ++ ':' :: ' ' :: dumpsV v ++ ',' :: ' ' :: dumpsFields (p :: t)

/-- Dumped elements of an array, separated by ", ". -/
def dumpsElems : List JVal → List Char
  | [] => []
  | [v] => dumpsV v
  | v :: w :: t => dumpsV v ++ ',' :: ' ' :: dumpsElems (w :: t)

end

/-- Shape of the integer part of a JSON number literal: a single zero or a
nonzero digit followed by digits. -/
def IntPartShape (ip : List Char) : Prop :=
  ip = ['0'] ∨ ∃ d t, ip = d :: t ∧ isDigitC d = true ∧ d ≠ '0' ∧
    ∀ c ∈ t, isDigitC c = true

/-- Shape of the fraction part: absent, or a dot with at least one digit. -/
def FracShape (fp : List Char) : Prop :=
  fp = [] ∨ ∃ ds, fp = '.' :: ds ∧ ds ≠ [] ∧ ∀ c ∈ ds, isDigitC c = true

/-- Shape of the exponent part: absent, or an exponent marker, an optional
sign, and at least one digit. -/
def ExpShape (ep : List Char) : Prop :=
  ep = [] ∨ ∃ e sgn ds, (e = 'e' ∨ e = 'E') ∧
    (sgn = [] ∨ sgn = ['+'] ∨ sgn = ['-']) ∧ ep = e :: sgn ++ ds ∧
    ds ≠ [] ∧ ∀ c ∈ ds, isDigitC c = true

/-- A valid float literal: optional sign, integer part, then fraction or
exponent part with at least one of the two present (this is what makes
`json` read it back as a float rather than an int). -/
def FloatLit (l : List Char) : Prop :=
  ∃ (sgn : Bool) (ip fp ep : List Char),
    l = (if sgn then ['-'] else []) ++ ip ++ fp ++ ep ∧
    IntPartShape ip ∧ FracShape fp ∧ ExpShape ep ∧ (fp ≠ [] ∨ ep ≠ [])

mutual

/-- Well-formedness of a JSON value for the round-trip statement: float
values carry a valid float literal, and objects have pairwise-distinct
keys (so that they denote genuine Python dicts). -/
def WF : JVal → Prop
  | .jstr _ => True
  | .jint _ => True
  | .jfloat r => FloatLit r.data
  | .jbool _ => True
  | .jnull => True
  | .jarr xs => WFelems xs
  | .jobj fs => (fs.map Prod.fst).Nodup ∧ WFfields fs

/-- Well-formedness of array elements. -/
def WFelems : List JVal → Prop
  | [] => True
  | v :: t => WF v ∧ WFelems t

/-- Well-formedness of object field values. -/
def WFfields : List (String × JVal) → Prop
  | [] => True
  | p :: t => WF p.2 ∧ WFfields t

end

/-- Safe continuations after a dumped number: end of input, or a
character that cannot extend the number literal (in a dumped document the
next character is a comma or a closing bracket or brace). -/
def numSafe (l : List Char) : Prop :=
  ∀ c ∈ l.head?, isDigitC c = false ∧ c ≠ '.' ∧ c ≠ 'e' ∧ c ≠ 'E'

/-! Spec-side predicates for the Correctness Evaluator claims, written
from the claim's words: a string value matches when it contains the
lower-cased keyword case-insensitively; a number value (a JSON int or
float) matches when the keyword occurs inside its decimal string
representation. -/

/-- Spec reading on the value of a mapping entry: the value is a string
containing the lower-cased keyword case-insensitively. -/
def valueIsStrMatch (kwL : String) (v : JVal) : Prop :=
  ∃ s, v = .jstr s ∧ strContains (strLower s) kwL = true

/-- Spec reading on the value of a mapping entry: the value is a number
whose decimal string representation contains the keyword. -/
def valueIsNumMatch (kwL : String) (v : JVal) : Prop :=
  (∃ n, v = .jint n ∧ strContains (intRepr n) kwL = true) ∨
  (∃ r, v = .jfloat r ∧ strContains r kwL = true)

/-- Amendment forced by Python's `bool` being a subclass of `int`: a
boolean value also matches, via its Python string form True/False. -/
def valueIsBoolMatch (kwL : String) (v : JVal) : Prop :=
  ∃ b, v = .jbool b ∧ strContains (pyBoolStr b) kwL = true

/-- Claim C1's structured clause: some value of the mapping matches as a
string or as a number. -/
def specStructMatch (kwL : String) (fs : List (String × JVal)) : Prop :=
  ∃ p ∈ fs, valueIsStrMatch kwL p.2 ∨ valueIsNumMatch kwL p.2

/-- Structured clause of the amended claim: booleans may also match. -/
def specStructMatchA (kwL : String) (fs : List (String × JVal)) : Prop :=
  ∃ p ∈ fs, valueIsStrMatch kwL p.2 ∨ valueIsNumMatch kwL p.2 ∨ valueIsBoolMatch kwL p.2

/-- The verdict of claim C1 as stated: a structured match, or no
structured match (or no mapping) together with a case-insensitive
occurrence of the keyword in the raw text. -/
def specVerdict (kw : String) (obj : Option (List (String × JVal))) (raw : String) : Prop :=
  (∃ fs, obj = some fs ∧ specStructMatch (strLower kw) fs) ∨
  ((¬ ∃ fs, obj = some fs ∧ specStructMatch (strLower kw) fs) ∧
    strContains (strLower raw) (strLower kw) = true)

/-- The amended verdict: as claim C1, with boolean values added to the
structured clause. -/
def specVerdictA (kw : String) (obj : Option (List (String × JVal))) (raw : String) : Prop :=
  (∃ fs, obj = some fs ∧ specStructMatchA (strLower kw) fs) ∨
  ((¬ ∃ fs, obj = some fs ∧ specStructMatchA (strLower kw) fs) ∧
    strContains (strLower raw) (strLower kw) = true)

/-- Case analysis of one structured-matching step against the amended
spec clauses. -/
lemma valMatches_iff (kwL : String) (v : JVal) :
    valMatches kwL v = true ↔
      (valueIsStrMatch kwL v ∨ valueIsNumMatch kwL v ∨ valueIsBoolMatch kwL v) := by
  cases v <;>
    simp [valMatches, valueIsStrMatch, valueIsNumMatch, valueIsBoolMatch]

/-- The structured scan of `check_correctness` agrees with the amended
structured clause. -/
lemma any_valMatches_iff (kwL : String) (fs : List (String × JVal)) :
    fs.any (fun p => valMatches kwL p.2) = true ↔ specStructMatchA kwL fs := by
  rw [List.any_eq_true]
  constructor
  · rintro ⟨p, hp, hm⟩
    exact ⟨p, hp, (valMatches_iff kwL p.2).mp hm⟩
  · rintro ⟨p, hp, hm⟩
    exact ⟨p, hp, (valMatches_iff kwL p.2).mpr hm⟩

/-- A non-mapping parse is dropped by the `isinstance(obj, dict)` filter. -/
lemma objOf_eq_none (v : JVal) (h : ∀ fs, v ≠ .jobj fs) : objOf (some v) = none := by
  cases v with
  | jobj fs => exact absurd rfl (h fs)
  | jstr s => rfl
  | jint n => rfl
  | jfloat r => rfl
  | jbool b => rfl
  | jnull => rfl
  | jarr xs => rfl

/-- Member mode of the scanner only ever produces an object value. -/
lemma parseRec_pm_isObj :
    ∀ (f : Nat) (acc : List (String × JVal)) (l : List Char) (v : JVal) (r : List Char),
      parseRec f (.pm acc) l = some (v, r) → ∃ fs, v = .jobj fs := by
  intro f
  induction f with
  | zero => intro acc l v r h; exact Option.noConfusion h
  | succ f ih =>
    intro acc l v r h
    cases l with
    | nil => exact Option.noConfusion h
    | cons c t =>
      simp only [parseRec] at h
      repeat' split at h
      all_goals first
        | exact Option.noConfusion h
        | exact ih _ _ _ _ h
        | (injection h with h1; exact ⟨_, (congrArg Prod.fst h1).symm⟩)

/-- Value mode on input starting with an opening brace can only produce an
object value. -/
lemma parseRec_pv_brace_shape (g : Nat) (body : List Char) (v : JVal) (r : List Char)
    (h : parseRec g .pv (openBraceC :: body) = some (v, r)) : ∃ fs, v = .jobj fs := by
  cases g with
  | zero => exact Option.noConfusion h
  | succ f =>
    have h1 : (match skipWsC body with
        | d :: t2 => if d = closeBraceC then some (JVal.jobj [], t2)
            else parseRec f (PMode.pm []) (skipWsC body)
        | [] => none) = some (v, r) := h
    cases hsk : skipWsC body with
    | nil => rw [hsk] at h1; exact Option.noConfusion h1
    | cons d t2 =>
      rw [hsk] at h1
      have h2 : (if d = closeBraceC then some (JVal.jobj [], t2)
          else parseRec f (PMode.pm []) (d :: t2)) = some (v, r) := h1
      by_cases hd : d = closeBraceC
      · rw [if_pos hd] at h2
        injection h2 with h3
        exact ⟨[], (congrArg Prod.fst h3).symm⟩
      · rw [if_neg hd] at h2
        exact parseRec_pm_isObj f [] (d :: t2) v r h2

/-- The model of `json.loads` on a brace-headed string either fails or
yields a mapping. -/
lemma jsonLoads_brace (body : List Char) :
    jsonLoads (String.mk (openBraceC :: body)) = none ∨
    ∃ fs, jsonLoads (String.mk (openBraceC :: body)) = some (.jobj fs) := by
  unfold jsonLoads
  cases hp : parseRec ((String.mk (openBraceC :: body)).data.length + 1) PMode.pv
      (String.mk (openBraceC :: body)).data with
  | none => left; simp only [hp]
  | some vr =>
    obtain ⟨v, r⟩ := vr
    obtain ⟨fs, rfl⟩ := parseRec_pv_brace_shape _ body v r hp
    by_cases hr : skipWsC r = []
    · right; exact ⟨fs, by simp only [hp, if_pos hr]⟩
    · left; simp only [hp, if_neg hr]

/-- The regex-scan model only ever returns a span starting with an opening
brace. -/
lemma extractBrace_head :
    ∀ (l : List Char) (sub : List Char), extractBrace l = some sub →
      ∃ body, sub = openBraceC :: body := by
  intro l
  induction l with
  | nil => intro sub h; exact Option.noConfusion h
  | cons c t ih =>
    intro sub h
    simp only [extractBrace] at h
    by_cases hc : c = openBraceC
    · rw [if_pos hc] at h
      cases htc : takeThroughClose t with
      | some body => rw [htc] at h; injection h with h1; exact ⟨body, by rw [← h1, hc]⟩
      | none => rw [htc] at h; exact ih sub h
    · rw [if_neg hc] at h; exact ih sub h

/-- Claim C3: when the whole trimmed input does not parse as a JSON
mapping, the parser removes the (six-backtick) code-block delimiter
pattern, scans for the first span from an opening brace to the nearest
closing brace (a non-greedy text match, not a brace-depth parser), and
returns that span's parse when it is a mapping.  Conjunct 1 is the
claim's concrete example; conjunct 2 exhibits the scanned span on that
input; conjunct 3 shows a fenced input also succeeding via the scan; and
conjunct 4 shows the nearest-brace (non-greedy) behaviour: on a
nested-object input a brace-depth scan would succeed, but the span is cut
at the first closing brace and the parse fails. -/
theorem claim3_brace_scan :
    parse_json_response
        "Here is the answer:\n\x7b\"final_answer\": \"0.625\"\x7d\nHope that helps."
      = some [("final_answer", JVal.jstr "0.625")] ∧
    extractBrace (pyStrip (pyReplaceTicks (pyStrip
        "Here is the answer:\n\x7b\"final_answer\": \"0.625\"\x7d\nHope that helps."))).data
      = some ("\x7b\"final_answer\": \"0.625\"\x7d".data) ∧
    parse_json_response "```json\n\x7b\"ok\": true\x7d\n```"
      = some [("ok", JVal.jbool true)] ∧
    parse_json_response "x \x7b\"a\": \x7b\"b\": 1\x7d\x7d y" = none := by
  exact ⟨rfl, rfl, rfl, rfl⟩

/-- Claim C4: a whole-string or brace-delimited parse yielding a
non-mapping JSON value is treated as a parse failure and never returned.
Conjunct 1 is the claim's concrete example.  Conjunct 2: a successful
whole-string parse that is not a mapping sends the parser to the
brace-scan fallback (never returning the value).  Conjunct 3: a
brace-delimited span can only ever parse to a mapping or fail, so no
non-mapping value can be returned from the fallback either. -/
theorem claim4_non_mapping_rejected :
    parse_json_response "[1,2,3]" = none ∧
    (∀ (t : String) (v : JVal), t ≠ "" → jsonLoads (pyStrip t) = some v →
      (∀ fs, v ≠ JVal.jobj fs) → parse_json_response t = braceFallback (pyStrip t)) ∧
    (∀ (l sub : List Char), extractBrace l = some sub →
      jsonLoads (String.mk sub) = none ∨
      ∃ fs, jsonLoads (String.mk sub) = some (JVal.jobj fs)) := by
  refine ⟨rfl, ?_, ?_⟩
  · intro t v h0 hload hno
    simp only [parse_json_response]
    rw [if_neg h0]
    simp only [hload, objOf_eq_none v hno]
  · intro l sub hex
    obtain ⟨body, hb⟩ := extractBrace_head l sub hex
    rw [hb]
    exact jsonLoads_brace body

/-- Witness for claim C4's conditional parts at concrete inputs: the
direct parse of "[1,2,3]" is a non-mapping array and the parser moves to
the fallback; and a concrete extracted brace span parses to a mapping
(never to a non-mapping value). -/
theorem claim4_witness :
    parse_json_response "[1,2,3]" = braceFallback (pyStrip "[1,2,3]") ∧
    (jsonLoads (String.mk ("\x7b\"a\": 1\x7d".data)) = none ∨
      ∃ fs, jsonLoads (String.mk ("\x7b\"a\": 1\x7d".data)) = some (JVal.jobj fs)) := by
  constructor
  · exact claim4_non_mapping_rejected.2.1 "[1,2,3]"
      (JVal.jarr [JVal.jint 1, JVal.jint 2, JVal.jint 3])
      (by decide) rfl (by intro fs h; cases h)
  · exact claim4_non_mapping_rejected.2.2 ("\x7b\"a\": 1\x7d".data) _ rfl

/-- Claim C5: the Response Parser and the Correctness Evaluator always
produce a definite result and no exception escapes either component; in
particular, empty or absent input to the parser yields the unparseable
result.  Exceptions of the underlying `json.loads` are modelled as `none`
and both components are total functions of their inputs by construction;
the final two conjuncts record that totality, and the first two are the
claim's empty/absent cases. -/
theorem claim5_total_definite :
    parseJsonResponseOpt none = none ∧
    parse_json_response "" = none ∧
    (∀ t : String, parse_json_response t = none ∨
      ∃ fs, parse_json_response t = some fs) ∧
    (∀ (tc : TestCase) (obj : Option (List (String × JVal))) (raw : String),
      check_correctness tc obj raw = true ∨ check_correctness tc obj raw = false) := by
  refine ⟨rfl, rfl, ?_, ?_⟩
  · intro t
    cases h : parse_json_response t with
    | none => exact Or.inl rfl
    | some fs => exact Or.inr ⟨fs, rfl⟩
  · intro tc obj raw
    cases h : check_correctness tc obj raw with
    | false => exact Or.inr rfl
    | true => exact Or.inl rfl

/-- Claim C6: with expected keyword "0.625" and a parsed mapping holding
the numeric (float) value 0.625, the evaluator returns true via the
numeric-to-string containment, whatever the raw text. -/
theorem claim6_numeric_match (tc : TestCase) (fs : List (String × JVal))
    (raw k : String) (hkw : tc.expected_keyword = "0.625")
    (hmem : (k, JVal.jfloat "0.625") ∈ fs) :
    check_correctness tc (some fs) raw = true := by
  have hany : fs.any (fun p => valMatches (strLower tc.expected_keyword) p.2) = true :=
    List.any_eq_true.mpr ⟨(k, .jfloat "0.625"), hmem, by
      show valMatches (strLower tc.expected_keyword) (JVal.jfloat "0.625") = true
      rw [hkw]; decide⟩
  simp [check_correctness, hany]

/-- Witness for claim C6 at the registry's MATH test case and a concrete
parsed response. -/
theorem claim6_witness :
    check_correctness ⟨"test_math_bayes_theorem", Category.MATH, "0.625"⟩
      (some [("final_answer", JVal.jfloat "0.625")]) "some steps" = true :=
  claim6_numeric_match _ _ _ "final_answer" rfl (by simp)

/-- Claim C9: when the brace scan finds a span and that span fails to
parse as JSON, the parser returns the unparseable result at once — the
code path is a single `return None` inside the exception handler, so no
later brace-delimited substring of the input is ever attempted. -/
theorem claim9_first_span_only (t : String) (sub : List Char)
    (h0 : t ≠ "")
    (h1 : objOf (jsonLoads (pyStrip t)) = none)
    (h2 : extractBrace (pyStrip (pyReplaceTicks (pyStrip t))).data = some sub)
    (h3 : jsonLoads (String.mk sub) = none) :
    parse_json_response t = none := by
  simp only [parse_json_response]
  rw [if_neg h0]
  simp only [h1]
  simp only [braceFallback, h2, h3]
  rfl

/-- Witness for claim C9: on this input the first scanned span fails to
parse, and the parser answers none even though a later brace-delimited
substring of the same input does parse as a mapping. -/
theorem claim9_witness :
    parse_json_response "\x7ba\x7d \x7b\"b\": 1\x7d" = none ∧
    jsonLoads "\x7b\"b\": 1\x7d" = some (JVal.jobj [("b", JVal.jint 1)]) := by
  constructor
  · exact claim9_first_span_only "\x7ba\x7d \x7b\"b\": 1\x7d" ("\x7ba\x7d".data)
      (by decide) rfl rfl rfl
  · rfl

/-- Claim C1, counterexample: the claim's case split (string values by
case-insensitive containment, number values by their decimal string
representation, otherwise the raw-text fallback) misses Python booleans:
`isinstance(True, int)` holds, so `check_correctness` also tests the
lowered keyword against `str(True) = "True"`.  With keyword "rue", a
mapping whose only value is `true`, and empty raw text, the code returns
true while the claim's description yields false. -/
theorem claim1_counterexample :
    check_correctness ⟨"tc", Category.LOGIC, "rue"⟩
      (some [("correct", JVal.jbool true)]) "" = true ∧
    ¬ specVerdict "rue" (some [("correct", JVal.jbool true)]) "" := by
  constructor
  · rfl
  · rintro (⟨fs, hfs, p, hp, hm⟩ | ⟨-, hraw⟩)
    · injection hfs with hfs1
      subst hfs1
      simp only [List.mem_singleton] at hp
      subst hp
      rcases hm with ⟨s, hs, -⟩ | (⟨n, hn, -⟩ | ⟨r, hr, -⟩)
      · exact JVal.noConfusion hs
      · exact JVal.noConfusion hn
      · exact JVal.noConfusion hr
    · exact absurd hraw (by decide)

/-- Claim C1, amended: the evaluator returns true iff some mapping value
matches — a string containing the lower-cased keyword case-insensitively,
or an int or float whose decimal string representation contains the
lowered keyword, or (the amendment) a boolean whose Python string form
True/False contains the lowered keyword — or no value matched (or no
mapping exists) and the lowered keyword occurs case-insensitively in
the raw text.  The claim's first-match/short-circuit clause has no
observable effect on the returned boolean and is subsumed by the
disjunction. -/
theorem claim1_amended (tc : TestCase) (obj : Option (List (String × JVal)))
    (raw : String) :
    check_correctness tc obj raw = true ↔ specVerdictA tc.expected_keyword obj raw := by
  unfold specVerdictA
  cases obj with
  | none =>
    have hc : check_correctness tc none raw
        = strContains (strLower raw) (strLower tc.expected_keyword) := rfl
    rw [hc]
    constructor
    · intro hraw
      refine Or.inr ⟨?_, hraw⟩
      rintro ⟨fs, hfs, -⟩
      exact Option.noConfusion hfs
    · rintro (⟨fs, hfs, -⟩ | ⟨-, hraw⟩)
      · exact Option.noConfusion hfs
      · exact hraw
  | some fs =>
    have hc : check_correctness tc (some fs) raw
        = (fs.any (fun p => valMatches (strLower tc.expected_keyword) p.2)
            || strContains (strLower raw) (strLower tc.expected_keyword)) := rfl
    rw [hc, Bool.or_eq_true]
    constructor
    · rintro (hany | hraw)
      · exact Or.inl ⟨fs, rfl, (any_valMatches_iff _ fs).mp hany⟩
      · by_cases hs : specStructMatchA (strLower tc.expected_keyword) fs
        · exact Or.inl ⟨fs, rfl, hs⟩
        · refine Or.inr ⟨?_, hraw⟩
          rintro ⟨fs2, hfs2, hsm⟩
          injection hfs2 with h1
          subst h1
          exact hs hsm
    · rintro (⟨fs2, hfs2, hsm⟩ | ⟨-, hraw⟩)
      · injection hfs2 with h1
        subst h1
        exact Or.inl ((any_valMatches_iff _ fs).mpr hsm)
      · exact Or.inr hraw

/-- Claim C10: mapping values that are nested mappings, lists, or null
(the value kinds that fail Python's `isinstance(val, (str, int, float))`
tests — booleans count as ints there) are skipped by the structured scan,
so a mapping containing only such values leaves the verdict to the
raw-text fallback alone. -/
theorem claim10_skipped_values (tc : TestCase) (fs : List (String × JVal))
    (raw : String)
    (h : ∀ p ∈ fs, p.2 = JVal.jnull ∨ (∃ xs, p.2 = JVal.jarr xs) ∨
      (∃ gs, p.2 = JVal.jobj gs)) :
    check_correctness tc (some fs) raw
      = strContains (strLower raw) (strLower tc.expected_keyword) := by
  have hany : fs.any (fun p => valMatches (strLower tc.expected_keyword) p.2) = false := by
    rw [List.any_eq_false]
    intro p hp
    rcases h p hp with h0 | ⟨xs, h0⟩ | ⟨gs, h0⟩ <;> rw [h0] <;> simp [valMatches]
  simp [check_correctness, hany]

/-- Witness for claim C10 at a concrete mapping holding one null, one
list, and one nested mapping: the verdict equals the raw-text fallback. -/
theorem claim10_witness :
    check_correctness ⟨"t", Category.LOGIC, "kw"⟩
        (some [("a", JVal.jnull), ("b", JVal.jarr [JVal.jint 7]),
               ("c", JVal.jobj [("d", JVal.jstr "kw")])]) "no match here"
      = strContains (strLower "no match here") (strLower "kw") := by
  refine claim10_skipped_values _ _ _ ?_
  intro p hp
  simp only [List.mem_cons, List.mem_singleton, List.not_mem_nil] at hp
  rcases hp with rfl | rfl | rfl | h
  · exact Or.inl rfl
  · exact Or.inr (Or.inl ⟨[JVal.jint 7], rfl⟩)
  · exact Or.inr (Or.inr ⟨[("d", JVal.jstr "kw")], rfl⟩)
  · cases h

/-- The registry is these three test cases in order. -/
lemma TEST_CASES_eq : TEST_CASES = [tcLogic, tcMath, tcCoding] := rfl

/-- Category of the LOGIC test case. -/
lemma tcLogic_cat : tcLogic.category = Category.LOGIC := rfl

/-- Category of the MATH test case. -/
lemma tcMath_cat : tcMath.category = Category.MATH := rfl

/-- Category of the CODING test case. -/
lemma tcCoding_cat : tcCoding.category = Category.CODING := rfl

/-- Explicit description of the fields of the per-model aggregation: each
category flag records the verdict of its test case, the latency samples
are exactly those of the successful generation calls in registry order,
and the average is the mean of the samples when any were collected and
the initial zero otherwise. -/
lemma runModel_fields (gen : TestCase → GenResult) :
    (runModel gen).logic_pass = passedOf gen tcLogic ∧
    (runModel gen).math_pass = passedOf gen tcMath ∧
    (runModel gen).code_pass = passedOf gen tcCoding ∧
    (runModel gen).latencies
      = (TEST_CASES.filter (fun tc => (gen tc).success)).map (fun tc => (gen tc).latency) ∧
    ((runModel gen).latencies = [] → (runModel gen).avg_latency = 0) ∧
    ((runModel gen).latencies ≠ [] →
      (runModel gen).avg_latency = meanQ ((runModel gen).latencies)) := by
  cases hb1 : (gen tcLogic).success <;> cases hb2 : (gen tcMath).success <;>
    cases hb3 : (gen tcCoding).success <;>
      simp [runModel, TEST_CASES_eq, stepTest, initStats, List.filter,
        tcLogic_cat, tcMath_cat, tcCoding_cat, hb1, hb2, hb3]

/-- Claim C7: a failed generation call contributes no latency sample (the
samples are exactly the successful calls' latencies) and forces its
category's pass flag to false; when all three calls fail, all three flags
are false and the total score is 0. -/
theorem claim7_failed_generation (gen : TestCase → GenResult) :
    ((runModel gen).latencies
      = (TEST_CASES.filter (fun tc => (gen tc).success)).map (fun tc => (gen tc).latency)) ∧
    (∀ tc ∈ TEST_CASES, (gen tc).success = false →
      categoryPass (runModel gen) tc.category = false) ∧
    ((∀ tc ∈ TEST_CASES, (gen tc).success = false) →
      (runModel gen).logic_pass = false ∧ (runModel gen).math_pass = false ∧
      (runModel gen).code_pass = false ∧ totalScore (runModel gen) = 0) := by
  obtain ⟨h1, h2, h3, hlat, -, -⟩ := runModel_fields gen
  refine ⟨hlat, ?_, ?_⟩
  · intro tc htc hfail
    simp only [TEST_CASES_eq, List.mem_cons, List.not_mem_nil, or_false] at htc
    rcases htc with rfl | rfl | rfl
    · show (runModel gen).logic_pass = false
      rw [h1]; simp [passedOf, hfail]
    · show (runModel gen).math_pass = false
      rw [h2]; simp [passedOf, hfail]
    · show (runModel gen).code_pass = false
      rw [h3]; simp [passedOf, hfail]
  · intro hall
    have f1 : (runModel gen).logic_pass = false := by
      rw [h1]; simp [passedOf, hall tcLogic (by simp [TEST_CASES_eq])]
    have f2 : (runModel gen).math_pass = false := by
      rw [h2]; simp [passedOf, hall tcMath (by simp [TEST_CASES_eq])]
    have f3 : (runModel gen).code_pass = false := by
      rw [h3]; simp [passedOf, hall tcCoding (by simp [TEST_CASES_eq])]
    exact ⟨f1, f2, f3, by simp [totalScore, f1, f2, f3]⟩

/-- Witness for claim C7 with an all-failing generation oracle. -/
theorem claim7_witness :
    categoryPass (runModel (fun _ => GenResult.mk false 1 none)) Category.LOGIC = false ∧
    (runModel (fun _ => GenResult.mk false 1 none)).logic_pass = false ∧
    (runModel (fun _ => GenResult.mk false 1 none)).math_pass = false ∧
    (runModel (fun _ => GenResult.mk false 1 none)).code_pass = false ∧
    totalScore (runModel (fun _ => GenResult.mk false 1 none)) = 0 := by
  refine ⟨?_, (claim7_failed_generation _).2.2 (fun tc _ => rfl)⟩
  exact (claim7_failed_generation (fun _ => GenResult.mk false 1 none)).2.1 tcLogic
    (by simp [TEST_CASES_eq]) rfl

/-- Claim C8: the latency samples are those of the successful generation
calls, the reported average is their arithmetic mean (`meanQ l` is
`l.sum / l.length`), and with zero samples the average is zero rather
than an error. -/
theorem claim8_average_latency (gen : TestCase → GenResult) :
    ((runModel gen).latencies
      = (TEST_CASES.filter (fun tc => (gen tc).success)).map (fun tc => (gen tc).latency)) ∧
    ((runModel gen).latencies = [] → (runModel gen).avg_latency = 0) ∧
    ((runModel gen).latencies ≠ [] →
      (runModel gen).avg_latency
        = ((runModel gen).latencies).sum / ((runModel gen).latencies).length) := by
  obtain ⟨-, -, -, hlat, hz, hm⟩ := runModel_fields gen
  exact ⟨hlat, hz, fun h => (hm h).trans rfl⟩

/-- Witness for claim C8: with all calls failing the average is zero; with
all calls succeeding at latency 2 the average is the arithmetic mean of
the three collected samples. -/
theorem claim8_witness :
    (runModel (fun _ => GenResult.mk false 1 none)).avg_latency = 0 ∧
    (runModel (fun _ => GenResult.mk true 2 (some "x"))).avg_latency
      = ((runModel (fun _ => GenResult.mk true 2 (some "x"))).latencies).sum
        / ((runModel (fun _ => GenResult.mk true 2 (some "x"))).latencies).length := by
  constructor
  · exact (claim8_average_latency (fun _ => GenResult.mk false 1 none)).2.1 rfl
  · refine (claim8_average_latency (fun _ => GenResult.mk true 2 (some "x"))).2.2 ?_
    rw [show (runModel (fun _ => GenResult.mk true 2 (some "x"))).latencies
      = [2, 2, 2] from rfl]
    simp

/-! Lemmas for the parser round-trip (claim C2): digit runs, decimal
representations, number parsing, string escaping, and the main fuel
induction. -/

/-- A digit character is distinct from any non-digit character. -/
lemma digit_ne (c : Char) (h : isDigitC c = true) (d : Char)
    (hd : isDigitC d = false) : c ≠ d := by
  rintro rfl
  rw [h] at hd
  cases hd

/-- A digit is not JSON whitespace. -/
lemma digit_not_jsonWs (c : Char) (h : isDigitC c = true) : isJsonWsC c = false := by
  cases hw : isJsonWsC c with
  | false => rfl
  | true =>
    exfalso
    simp only [isJsonWsC, Bool.or_eq_true, decide_eq_true_eq] at hw
    rcases hw with ((rfl | rfl) | rfl) | rfl <;> exact absurd h (by decide)

/-- The digit character of a value below ten. -/
lemma isDigitC_ofNat (m : Nat) (h : m < 10) : isDigitC (Char.ofNat (48 + m)) = true := by
  interval_cases m <;> decide

/-- Numeric value of the digit character of a value below ten. -/
lemma digitToNat_ofNat (m : Nat) (h : m < 10) : digitToNat (Char.ofNat (48 + m)) = m := by
  interval_cases m <;> decide

/-- Digit characters of nonzero values below ten differ from '0'. -/
lemma ofNat_digit_ne_zero (m : Nat) (h1 : m < 10) (h2 : m ≠ 0) :
    Char.ofNat (48 + m) ≠ '0' := by
  interval_cases m <;> first | exact absurd rfl h2 | decide

/-- A maximal digit run splits a digit block from a non-digit-headed
continuation. -/
lemma takeDigits_append (ds rest : List Char) (hds : ∀ c ∈ ds, isDigitC c = true)
    (hrest : ∀ c ∈ rest.head?, isDigitC c = false) :
    takeDigits (ds ++ rest) = (ds, rest) := by
  induction ds with
  | nil =>
    simp only [List.nil_append]
    cases rest with
    | nil => rfl
    | cons c t =>
      have hc := hrest c rfl
      simp [takeDigits, hc]
  | cons d t ih =>
    have hd := hds d (by simp)
    have iht := ih (fun c hc => hds c (by simp [hc]))
    simp only [List.cons_append, takeDigits, hd, if_true, List.append_eq, iht]

/-- Specification of the little-endian digit expansion: all digits, the
reversal evaluates back to the number, zero gives exactly "0", and a
nonzero number starts with a nonzero digit. -/
lemma natDigitsAux_spec :
    ∀ n f, n < f →
      (∀ c ∈ natDigitsAux f n, isDigitC c = true) ∧
      valOfDigits (natDigitsAux f n).reverse = n ∧
      (natDigitsAux f n).reverse ≠ [] ∧
      (n = 0 → (natDigitsAux f n).reverse = ['0']) ∧
      (n ≠ 0 → ∃ d t, (natDigitsAux f n).reverse = d :: t ∧
        isDigitC d = true ∧ d ≠ '0') := by
  intro n
  induction n using Nat.strong_induction_on with
  | _ n ih =>
    intro f hf
    cases f with
    | zero => omega
    | succ f =>
      by_cases h10 : n < 10
      · have hd : natDigitsAux (f + 1) n = [Char.ofNat (48 + n)] := by
          simp [natDigitsAux, h10]
        rw [hd]
        refine ⟨?_, ?_, by simp, ?_, ?_⟩
        · intro c hc
          simp only [List.mem_singleton] at hc
          subst hc
          exact isDigitC_ofNat n h10
        · simp only [List.reverse_singleton, valOfDigits, List.foldl_cons, List.foldl_nil]
          rw [Nat.zero_mul, Nat.zero_add, digitToNat_ofNat n h10]
        · intro h0; subst h0; rfl
        · intro hne
          exact ⟨Char.ofNat (48 + n), [], by simp, isDigitC_ofNat n h10,
            ofNat_digit_ne_zero n h10 hne⟩
      · have hd : natDigitsAux (f + 1) n
            = Char.ofNat (48 + n % 10) :: natDigitsAux f (n / 10) := by
          simp [natDigitsAux, h10]
        have hlt : n / 10 < n := Nat.div_lt_self (by omega) (by omega)
        have hf2 : n / 10 < f := by omega
        obtain ⟨ihAll, ihVal, ihNe, -, ihNz⟩ := ih (n / 10) hlt f hf2
        have hn10 : n / 10 ≠ 0 := by omega
        obtain ⟨d, t, hrev, hdd, hd0⟩ := ihNz hn10
        have hm10 : n % 10 < 10 := Nat.mod_lt _ (by omega)
        rw [hd, List.reverse_cons]
        refine ⟨?_, ?_, by simp, fun h0 => absurd h0 (by omega), ?_⟩
        · intro c hc
          rcases List.mem_cons.mp hc with rfl | hc
          · exact isDigitC_ofNat _ hm10
          · exact ihAll c hc
        · rw [valOfDigits, List.foldl_append]
          show valOfDigits (natDigitsAux f (n / 10)).reverse * 10
              + digitToNat (Char.ofNat (48 + n % 10)) = n
          rw [ihVal, digitToNat_ofNat _ hm10]
          omega
        · intro _
          exact ⟨d, t ++ [Char.ofNat (48 + n % 10)], by rw [hrev]; simp, hdd, hd0⟩

/-- Specification of the decimal representation of a natural number. -/
lemma natRepr_spec (n : Nat) :
    (∀ c ∈ (natRepr n).data, isDigitC c = true) ∧
    valOfDigits (natRepr n).data = n ∧
    (natRepr n).data ≠ [] ∧
    (n = 0 → (natRepr n).data = ['0']) ∧
    (n ≠ 0 → ∃ d t, (natRepr n).data = d :: t ∧ isDigitC d = true ∧ d ≠ '0') := by
  have h := natDigitsAux_spec n (n + 1) (Nat.lt_succ_self n)
  obtain ⟨hall, hval, hne, hz, hnz⟩ := h
  have hdata : (natRepr n).data = (natDigitsAux (n + 1) n).reverse := rfl
  rw [hdata]
  exact ⟨fun c hc => hall c (List.mem_reverse.mp hc), hval, hne, hz, hnz⟩

/-- A fraction part is absent when the input does not start with a dot. -/
lemma parseFrac_skip (l : List Char) (h : ∀ c ∈ l.head?, c ≠ '.') :
    parseFrac l = ([], l) := by
  cases l with
  | nil => rfl
  | cons c t => simp [parseFrac, h c rfl]

/-- An exponent part is absent when the input does not start with an
exponent marker. -/
lemma parseExpPart_skip (l : List Char) (h : ∀ c ∈ l.head?, c ≠ 'e' ∧ c ≠ 'E') :
    parseExpPart l = ([], l) := by
  cases l with
  | nil => rfl
  | cons c t => simp [parseExpPart, (h c rfl).1, (h c rfl).2]

/-- Number parse on an input starting with a sign. -/
lemma parseNumberCore_sign (X : List Char) :
    parseNumberCore ('-' :: X) =
      (match parseIntPart X with
       | none => none
       | some (ip, r1) => parseNumAfterInt true ip r1) := rfl

/-- Number parse on an input not starting with a sign. -/
lemma parseNumberCore_nosign (c : Char) (t : List Char) (h : c ≠ '-') :
    parseNumberCore (c :: t) =
      (match parseIntPart (c :: t) with
       | none => none
       | some (ip, r1) => parseNumAfterInt false ip r1) := by
  simp [parseNumberCore, h]

/-- Integer part on a digit run headed by a nonzero digit. -/
lemma parseIntPart_digits (d : Char) (t rest : List Char) (hd : isDigitC d = true)
    (hd0 : d ≠ '0') (ht : ∀ c ∈ t, isDigitC c = true)
    (hrest : ∀ c ∈ rest.head?, isDigitC c = false) :
    parseIntPart (d :: t ++ rest) = some (d :: t, rest) := by
  have htk := takeDigits_append t rest ht hrest
  simp only [List.cons_append, parseIntPart, if_neg hd0, hd, if_true, htk]

/-- Integer part on a zero-headed input. -/
lemma parseIntPart_zero (X : List Char) : parseIntPart ('0' :: X) = some (['0'], X) := rfl

/-- Heads after a fraction part: an exponent part or a safe continuation
never starts with a digit or a dot. -/
lemma expShape_head (ep rest : List Char) (hep : ExpShape ep) (hrest : numSafe rest) :
    ∀ c ∈ (ep ++ rest).head?, isDigitC c = false ∧ c ≠ '.' := by
  rcases hep with rfl | ⟨e, sgn, ds, he, hsgn, rfl, hds, hdig⟩
  · exact fun c hc => ⟨(hrest c hc).1, (hrest c hc).2.1⟩
  · intro c hc
    simp only [List.cons_append, List.head?_cons, Option.mem_def, Option.some.injEq] at hc
    subst hc
    rcases he with rfl | rfl <;> exact ⟨by decide, by decide⟩

/-- Heads after the integer part: a fraction or exponent part or a safe
continuation never starts with a digit. -/
lemma fracExp_head (fp ep rest : List Char) (hfp : FracShape fp) (hep : ExpShape ep)
    (hrest : numSafe rest) :
    ∀ c ∈ (fp ++ (ep ++ rest)).head?, isDigitC c = false := by
  rcases hfp with rfl | ⟨ds, rfl, hds, hdig⟩
  · intro c hc
    simp only [List.nil_append] at hc
    exact (expShape_head ep rest hep hrest c hc).1
  · intro c hc
    simp only [List.cons_append, List.head?_cons, Option.mem_def, Option.some.injEq] at hc
    subst hc
    decide

/-- After the integer part, a safe continuation produces an int. -/
lemma parseNumAfterInt_int (sgn : Bool) (ip rest : List Char) (hrest : numSafe rest) :
    parseNumAfterInt sgn ip rest
      = some (.jint (if sgn then -(Int.ofNat (valOfDigits ip))
          else Int.ofNat (valOfDigits ip)), rest) := by
  have hfp : parseFrac rest = ([], rest) :=
    parseFrac_skip rest (fun c hc => (hrest c hc).2.1)
  have hep : parseExpPart rest = ([], rest) :=
    parseExpPart_skip rest (fun c hc => ⟨(hrest c hc).2.2.1, (hrest c hc).2.2.2⟩)
  simp [parseNumAfterInt, hfp, hep]

/-- The number parse of the decimal representation of an int. -/
lemma parseNumberCore_int (n : Int) (rest : List Char) (hrest : numSafe rest) :
    parseNumberCore ((intRepr n).data ++ rest) = some (.jint n, rest) := by
  obtain ⟨hall, hval, hne, hz, hnz⟩ := natRepr_spec n.natAbs
  have hnd : ∀ c ∈ rest.head?, isDigitC c = false := fun c hc => (hrest c hc).1
  by_cases hneg : n < 0
  · have hm : n.natAbs ≠ 0 := by omega
    obtain ⟨d, t, hdt, hdd, hd0⟩ := hnz hm
    have hir : (intRepr n).data = '-' :: (natRepr n.natAbs).data := by
      simp [intRepr, hneg]
    rw [hir, hdt, List.cons_append, parseNumberCore_sign,
      parseIntPart_digits d t rest hdd hd0
        (fun c hc => hall c (by rw [hdt]; simp [hc])) hnd]
    show parseNumAfterInt true (d :: t) rest = some (JVal.jint n, rest)
    rw [parseNumAfterInt_int true (d :: t) rest hrest]
    have h2 : valOfDigits (d :: t) = n.natAbs := by rw [← hdt]; exact hval
    refine congrArg (fun z => some (JVal.jint z, rest)) ?_
    simp only [h2, if_true, Int.ofNat_eq_natCast]
    omega
  · by_cases h0 : n = 0
    · subst h0
      have hir : (intRepr 0).data = ['0'] := by
        rw [show intRepr 0 = natRepr (0 : Int).natAbs from by simp [intRepr]]
        exact hz rfl
      rw [hir, List.singleton_append,
        parseNumberCore_nosign '0' rest (by decide), parseIntPart_zero]
      show parseNumAfterInt false ['0'] rest = some (JVal.jint 0, rest)
      rw [parseNumAfterInt_int false ['0'] rest hrest]
      simp [valOfDigits, digitToNat]
    · have hm : n.natAbs ≠ 0 := by omega
      obtain ⟨d, t, hdt, hdd, hd0⟩ := hnz hm
      have hir : (intRepr n).data = (natRepr n.natAbs).data := by
        simp [intRepr, hneg]
      rw [hir, hdt, List.cons_append,
        parseNumberCore_nosign d (t ++ rest) (digit_ne d hdd '-' (by decide)),
        show (d :: (t ++ rest)) = (d :: t ++ rest) from rfl,
        parseIntPart_digits d t rest hdd hd0
          (fun c hc => hall c (by rw [hdt]; simp [hc])) hnd]
      show parseNumAfterInt false (d :: t) rest = some (JVal.jint n, rest)
      rw [parseNumAfterInt_int false (d :: t) rest hrest]
      have h2 : valOfDigits (d :: t) = n.natAbs := by rw [← hdt]; exact hval
      refine congrArg (fun z => some (JVal.jint z, rest)) ?_
      rw [if_neg (by decide : ¬(false = true))]
      simp only [h2, Int.ofNat_eq_natCast]
      omega

/-- Strings are determined by their character lists. -/
lemma stringMk_data (s : String) : String.mk s.data = s := by
  cases s
  rfl

/-- After the integer part, fraction and exponent shapes are consumed
exactly, producing a float carrying the matched literal. -/
lemma parseNumAfterInt_float (sgn : Bool) (ip fp ep rest : List Char)
    (hfp : FracShape fp) (hep : ExpShape ep) (hone : fp ≠ [] ∨ ep ≠ [])
    (hrest : numSafe rest) :
    parseNumAfterInt sgn ip (fp ++ (ep ++ rest))
      = some (.jfloat (String.mk ((if sgn then ['-'] else []) ++ ip ++ fp ++ ep)),
          rest) := by
  have h1 : parseFrac (fp ++ (ep ++ rest)) = (fp, ep ++ rest) := by
    rcases hfp with rfl | ⟨ds, rfl, hds, hdig⟩
    · rw [List.nil_append]
      exact parseFrac_skip _ (fun c hc => (expShape_head ep rest hep hrest c hc).2)
    · rw [List.cons_append]
      have htk : takeDigits (ds ++ (ep ++ rest)) = (ds, ep ++ rest) :=
        takeDigits_append ds (ep ++ rest) hdig
          (fun c hc => (expShape_head ep rest hep hrest c hc).1)
      cases ds with
      | nil => exact absurd rfl hds
      | cons d ds2 =>
        simp only [parseFrac, if_pos rfl, List.cons_append]
        rw [show (d :: ds2 ++ (ep ++ rest)) = (d :: (ds2 ++ (ep ++ rest))) from rfl] at htk
        rw [htk]
        simp
  have h2 : parseExpPart (ep ++ rest) = (ep, rest) := by
    rcases hep with rfl | ⟨e, sg, ds, he, hsg, rfl, hds, hdig⟩
    · rw [List.nil_append]
      exact parseExpPart_skip _ (fun c hc => ⟨(hrest c hc).2.2.1, (hrest c hc).2.2.2⟩)
    · obtain ⟨d, ds2, rfl⟩ : ∃ d ds2, ds = d :: ds2 := by
        cases ds with
        | nil => exact absurd rfl hds
        | cons a b => exact ⟨a, b, rfl⟩
      have hdigd : isDigitC d = true := hdig d (by simp)
      have hda : d ≠ '+' := digit_ne d hdigd '+' (by decide)
      have hdb : d ≠ '-' := digit_ne d hdigd '-' (by decide)
      have htk : takeDigits (d :: ds2 ++ rest) = (d :: ds2, rest) :=
        takeDigits_append (d :: ds2) rest
          (fun c hc => by
            rcases List.mem_cons.mp hc with rfl | hc
            · exact hdigd
            · exact hdig c (by simp [hc]))
          (fun c hc => (hrest c hc).1)
      rw [show (d :: ds2 ++ rest) = (d :: (ds2 ++ rest)) from rfl] at htk
      rcases he with rfl | rfl <;> rcases hsg with rfl | rfl | rfl <;>
        simp [parseExpPart, hda, hdb] <;> rw [htk]
  simp only [parseNumAfterInt, h1, h2]
  rw [if_neg (by rcases hone with h | h <;> simp [h])]

/-- A valid float literal parses to the float carrying exactly that
literal. -/
lemma parseNumberCore_float (l rest : List Char) (hl : FloatLit l)
    (hrest : numSafe rest) :
    parseNumberCore (l ++ rest) = some (.jfloat (String.mk l), rest) := by
  obtain ⟨sgn, ip, fp, ep, rfl, hip, hfp, hep, hone⟩ := hl
  have hhead : ∀ c ∈ (fp ++ (ep ++ rest)).head?, isDigitC c = false :=
    fracExp_head fp ep rest hfp hep hrest
  cases sgn with
  | false =>
    rw [show ((if false then ['-'] else []) : List Char) = [] from rfl]
    simp only [List.nil_append, List.append_assoc]
    rcases hip with rfl | ⟨d, t, rfl, hd, hd0, ht⟩
    · rw [List.singleton_append, parseNumberCore_nosign '0' _ (by decide),
        parseIntPart_zero]
      show parseNumAfterInt false ['0'] (fp ++ (ep ++ rest)) = _
      rw [parseNumAfterInt_float false ['0'] fp ep rest hfp hep hone hrest]
      simp
    · rw [List.cons_append, parseNumberCore_nosign d _ (digit_ne d hd '-' (by decide)),
        show (d :: (t ++ (fp ++ (ep ++ rest)))) = (d :: t ++ (fp ++ (ep ++ rest))) from rfl,
        parseIntPart_digits d t (fp ++ (ep ++ rest)) hd hd0 ht hhead]
      show parseNumAfterInt false (d :: t) (fp ++ (ep ++ rest)) = _
      rw [parseNumAfterInt_float false (d :: t) fp ep rest hfp hep hone hrest]
      simp
  | true =>
    rw [show ((if true then ['-'] else []) : List Char) = ['-'] from rfl]
    simp only [List.append_assoc, List.singleton_append, List.cons_append,
      List.nil_append]
    rw [parseNumberCore_sign]
    rcases hip with rfl | ⟨d, t, rfl, hd, hd0, ht⟩
    · rw [List.singleton_append, parseIntPart_zero]
      show parseNumAfterInt true ['0'] (fp ++ (ep ++ rest)) = _
      rw [parseNumAfterInt_float true ['0'] fp ep rest hfp hep hone hrest]
      simp
    · rw [List.cons_append,
        show (d :: (t ++ (fp ++ (ep ++ rest)))) = (d :: t ++ (fp ++ (ep ++ rest))) from rfl,
        parseIntPart_digits d t (fp ++ (ep ++ rest)) hd hd0 ht hhead]
      show parseNumAfterInt true (d :: t) (fp ++ (ep ++ rest)) = _
      rw [parseNumAfterInt_float true (d :: t) fp ep rest hfp hep hone hrest]
      simp

/-- Hex digit characters decode back to their values. -/
lemma hexToNat_hexDigitC (d : Nat) (h : d < 16) : hexToNat? (hexDigitC d) = some d := by
  interval_cases d <;> decide

/-- Four-digit hex encodings decode back to their values. -/
lemma parseHex4_hex4 (n : Nat) (h : n < 65536) (rest : List Char) :
    parseHex4 (hex4 n ++ rest) = some (n, rest) := by
  have h1 : n / 4096 % 16 < 16 := Nat.mod_lt _ (by omega)
  have h2 : n / 256 % 16 < 16 := Nat.mod_lt _ (by omega)
  have h3 : n / 16 % 16 < 16 := Nat.mod_lt _ (by omega)
  have h4 : n % 16 < 16 := Nat.mod_lt _ (by omega)
  show parseHex4 (hexDigitC (n / 4096 % 16) :: hexDigitC (n / 256 % 16)
      :: hexDigitC (n / 16 % 16) :: hexDigitC (n % 16) :: rest) = some (n, rest)
  simp only [parseHex4, hexToNat_hexDigitC _ h1, hexToNat_hexDigitC _ h2,
    hexToNat_hexDigitC _ h3, hexToNat_hexDigitC _ h4]
  refine congrArg (fun k => some (k, rest)) ?_
  omega

/-- Scalar values of Lean characters avoid the surrogate range. -/
lemma char_toNat_valid (c : Char) :
    c.toNat < 55296 ∨ (57343 < c.toNat ∧ c.toNat < 1114112) := by
  have h := c.valid
  simp only [UInt32.isValidChar, Nat.isValidChar] at h
  exact h

/-- Unicode escapes are never empty. -/
lemma uEscape_length_pos (n : Nat) : 0 < (uEscape n).length := by
  unfold uEscape
  split_ifs <;> simp

/-- Escapes are never empty. -/
lemma escChar_length_pos (c : Char) : 0 < (escChar c).length := by
  unfold escChar
  split_ifs <;> first | exact uEscape_length_pos c.toNat | simp

/-- One scanning step on a backslash-u prefix hands off to the escape
decoder. -/
lemma parseStrChars_ustep (f : Nat) (T : List Char) :
    parseStrChars (f + 1) ('\\' :: 'u' :: T)
      = match parseUEsc T with
        | some (ch, t3) => consStrRes ch (parseStrChars f t3)
        | none => none := rfl

/-- Four hex digits at the head dispatch on the decoded value's range. -/
lemma parseUEsc_hex (m : Nat) (Y : List Char) (hm : m < 65536) :
    parseUEsc (hex4 m ++ Y)
      = if 55296 ≤ m && m < 56320 then parseUEscLow Y m
        else if 56320 ≤ m && m < 57344 then none
        else some (Char.ofNat m, Y) := by
  simp only [parseUEsc, parseHex4_hex4 m hm Y]

/-- A non-surrogate four-digit escape decodes to its code point. -/
lemma parseUEsc_single (n : Nat) (X : List Char) (hn : n < 65536)
    (hs1 : ¬(55296 ≤ n ∧ n < 56320)) (hs2 : ¬(56320 ≤ n ∧ n < 57344)) :
    parseUEsc (hex4 n ++ X) = some (Char.ofNat n, X) := by
  rw [parseUEsc_hex n X hn,
    if_neg (by simp only [Bool.and_eq_true, decide_eq_true_eq]; omega),
    if_neg (by simp only [Bool.and_eq_true, decide_eq_true_eq]; omega)]

/-- A low-surrogate escape after a high surrogate combines into the
supplementary code point. -/
lemma parseUEscLow_spec (n1 n2 : Nat) (X : List Char) (hn : n2 < 65536)
    (hr1 : 56320 ≤ n2) (hr2 : n2 < 57344) :
    parseUEscLow ('\\' :: 'u' :: (hex4 n2 ++ X)) n1
      = some (Char.ofNat (65536 + (n1 - 55296) * 1024 + (n2 - 56320)), X) := by
  simp only [parseUEscLow]
  rw [if_pos (by decide)]
  simp only [parseHex4_hex4 n2 hn X]
  rw [if_pos (by simp only [Bool.and_eq_true, decide_eq_true_eq]; omega)]

/-- A surrogate-pair escape decodes to its supplementary code point. -/
lemma parseUEsc_pair (n : Nat) (X : List Char) (h1 : 65536 ≤ n)
    (h2 : n < 1114112) :
    parseUEsc (hex4 (55296 + (n - 65536) / 1024)
        ++ ('\\' :: 'u' :: (hex4 (56320 + (n - 65536) % 1024) ++ X)))
      = some (Char.ofNat n, X) := by
  have hhi : 55296 + (n - 65536) / 1024 < 65536 := by omega
  have hlo : 56320 + (n - 65536) % 1024 < 65536 := by omega
  have hr1 : 56320 ≤ 56320 + (n - 65536) % 1024 := by omega
  have hr2 : 56320 + (n - 65536) % 1024 < 57344 := by omega
  rw [parseUEsc_hex _ _ hhi,
    if_pos (by simp only [Bool.and_eq_true, decide_eq_true_eq]; omega),
    parseUEscLow_spec _ _ X hlo hr1 hr2,
    show 65536 + ((55296 + (n - 65536) / 1024) - 55296) * 1024
        + ((56320 + (n - 65536) % 1024) - 56320) = n from by omega]

/-- A unicode escape decodes back to its character inside a string body. -/
lemma parseStr_uEscape (f : Nat) (c : Char) (X : List Char) :
    parseStrChars (f + 1) (uEscape c.toNat ++ X) = consStrRes c (parseStrChars f X) := by
  have hval := char_toNat_valid c
  have hbig : c.toNat < 1114112 := by omega
  by_cases hlt : c.toNat < 65536
  · have h1 : uEscape c.toNat ++ X = '\\' :: 'u' :: (hex4 c.toNat ++ X) := by
      simp [uEscape, hlt]
    rw [h1, parseStrChars_ustep,
      parseUEsc_single c.toNat X hlt (by omega) (by omega)]
    simp only [Char.ofNat_toNat]
  · have h1 : uEscape c.toNat ++ X
        = '\\' :: 'u' :: (hex4 (55296 + (c.toNat - 65536) / 1024)
            ++ ('\\' :: 'u' :: (hex4 (56320 + (c.toNat - 65536) % 1024) ++ X))) := by
      simp [uEscape, hlt]
    rw [h1, parseStrChars_ustep,
      parseUEsc_pair c.toNat X (by omega) hbig]
    simp only [Char.ofNat_toNat]

/-- One escaped character is decoded back by one scanning step. -/
lemma parseStr_escChar (f : Nat) (c : Char) (X : List Char) :
    parseStrChars (f + 1) (escChar c ++ X) = consStrRes c (parseStrChars f X) := by
  by_cases h1 : c = '"'
  · subst h1; rfl
  by_cases h2 : c = '\\'
  · subst h2; rfl
  by_cases h3 : c = '\n'
  · subst h3; rfl
  by_cases h4 : c = '\t'
  · subst h4; rfl
  by_cases h5 : c = '\r'
  · subst h5; rfl
  by_cases h6 : c = '\x08'
  · subst h6; rfl
  by_cases h7 : c = '\x0c'
  · subst h7; rfl
  by_cases h8 : c.toNat < 32
  · have he : escChar c = uEscape c.toNat := by
      simp [escChar, h1, h2, h3, h4, h5, h6, h7, h8]
    rw [he]
    exact parseStr_uEscape f c X
  by_cases h9 : c.toNat < 127
  · have he : escChar c = [c] := by
      simp [escChar, h1, h2, h3, h4, h5, h6, h7, h8, h9]
    rw [he, List.singleton_append]
    simp only [parseStrChars]
    rw [if_neg h1, if_neg h2, if_neg (by omega : ¬(c.toNat < 32))]
  · have he : escChar c = uEscape c.toNat := by
      simp [escChar, h1, h2, h3, h4, h5, h6, h7, h8, h9]
    rw [he]
    exact parseStr_uEscape f c X

/-- A fully escaped string body followed by a closing quote is decoded
back to the original characters, with any sufficient fuel. -/
lemma parseStr_escList (cs : List Char) (rest : List Char) :
    ∀ f, (escList cs).length + 1 ≤ f →
      parseStrChars f (escList cs ++ '"' :: rest) = some (cs, rest) := by
  induction cs with
  | nil =>
    intro f hf
    cases f with
    | zero => omega
    | succ f => rfl
  | cons c cs ih =>
    intro f hf
    have hesc : escList (c :: cs) = escChar c ++ escList cs := by
      simp [escList]
    cases f with
    | zero => omega
    | succ f =>
      rw [hesc, List.append_assoc, parseStr_escChar f c (escList cs ++ '"' :: rest),
        ih f ?hlen]
      · rfl
      case hlen =>
        rw [hesc] at hf
        have := escChar_length_pos c
        simp only [List.length_append] at hf
        omega

/-- Whitespace skipping stops at a non-whitespace head. -/
lemma skipWsC_cons_false (c : Char) (l : List Char) (h : isJsonWsC c = false) :
    skipWsC (c :: l) = c :: l := by
  simp [skipWsC, List.dropWhile, h]

/-- Whitespace skipping consumes a whitespace head. -/
lemma skipWsC_cons_true (c : Char) (l : List Char) (h : isJsonWsC c = true) :
    skipWsC (c :: l) = skipWsC l := by
  simp [skipWsC, List.dropWhile, h]

/-- Whitespace skipping is idempotent. -/
lemma skipWsC_idem (l : List Char) : skipWsC (skipWsC l) = skipWsC l := by
  induction l with
  | nil => rfl
  | cons c t ih =>
    by_cases h : isJsonWsC c = true
    · rw [skipWsC_cons_true c t h]; exact ih
    · rw [skipWsC_cons_false c t (by simpa using h),
        skipWsC_cons_false c t (by simpa using h)]

/-- A value parse only depends on the input modulo leading whitespace. -/
lemma parseRec_pv_skipWsC (f : Nat) (l0 : List Char) :
    parseRec (f + 1) PMode.pv l0 = parseRec (f + 1) PMode.pv (skipWsC l0) := by
  simp only [parseRec, skipWsC_idem]

/-- Value parse of the `true` literal. -/
lemma parseRec_pv_true (f : Nat) (rest l0 : List Char)
    (h : skipWsC l0 = 't' :: 'r' :: 'u' :: 'e' :: rest) :
    parseRec (f + 1) PMode.pv l0 = some (.jbool true, rest) := by
  rw [parseRec_pv_skipWsC, h]
  rfl

/-- Value parse of the `false` literal. -/
lemma parseRec_pv_false (f : Nat) (rest l0 : List Char)
    (h : skipWsC l0 = 'f' :: 'a' :: 'l' :: 's' :: 'e' :: rest) :
    parseRec (f + 1) PMode.pv l0 = some (.jbool false, rest) := by
  rw [parseRec_pv_skipWsC, h]
  rfl

/-- Value parse of the `null` literal. -/
lemma parseRec_pv_null (f : Nat) (rest l0 : List Char)
    (h : skipWsC l0 = 'n' :: 'u' :: 'l' :: 'l' :: rest) :
    parseRec (f + 1) PMode.pv l0 = some (.jnull, rest) := by
  rw [parseRec_pv_skipWsC, h]
  rfl

/-- On a number-headed input, the value parse defers to the number
parser. -/
lemma parseRec_pv_num (f : Nat) (l0 : List Char) (c : Char) (t : List Char)
    (h : skipWsC l0 = c :: t)
    (hcase : (c = '-' ∧ headIsUpperI t = false) ∨ isDigitC c = true) :
    parseRec (f + 1) PMode.pv l0 = parseNumberCore (c :: t) := by
  rcases hcase with ⟨rfl, hI⟩ | hdig
  · simp only [parseRec, h]
    rw [if_neg (by decide), if_neg (by decide), if_neg (by decide),
      if_neg (by decide), if_neg (by decide), if_neg (by decide),
      if_neg (by decide), if_neg (by decide)]
    rw [if_neg (by simp [hI]), if_pos (by simp)]
  · have h1 : c ≠ '"' := digit_ne c hdig '"' (by decide)
    have h2 : c ≠ openBraceC := digit_ne c hdig openBraceC (by decide)
    have h3 : c ≠ '[' := digit_ne c hdig '[' (by decide)
    have h4 : c ≠ 't' := digit_ne c hdig 't' (by decide)
    have h5 : c ≠ 'f' := digit_ne c hdig 'f' (by decide)
    have h6 : c ≠ 'n' := digit_ne c hdig 'n' (by decide)
    have h7 : c ≠ 'N' := digit_ne c hdig 'N' (by decide)
    have h8 : c ≠ 'I' := digit_ne c hdig 'I' (by decide)
    have h9 : c ≠ '-' := digit_ne c hdig '-' (by decide)
    simp only [parseRec, h]
    rw [if_neg h1, if_neg h2, if_neg h3, if_neg h4, if_neg h5, if_neg h6,
      if_neg h7, if_neg h8]
    rw [if_neg (by simp [h9]), if_pos (by simp [hdig])]

/-- The integer part of a number literal starts with a digit. -/
lemma intPartShape_head (ip : List Char) (h : IntPartShape ip) :
    ∃ d t, ip = d :: t ∧ isDigitC d = true := by
  rcases h with rfl | ⟨d, t, rfl, hd, _, _⟩
  · exact ⟨'0', [], rfl, by decide⟩
  · exact ⟨d, t, rfl, hd⟩

/-- Value parse of a dumped integer. -/
lemma parseRec_pv_int (f : Nat) (n : Int) (rest l0 : List Char)
    (h : skipWsC l0 = (intRepr n).data ++ rest) (hrest : numSafe rest) :
    parseRec (f + 1) PMode.pv l0 = some (.jint n, rest) := by
  obtain ⟨hall, hval, hne, hz, hnz⟩ := natRepr_spec n.natAbs
  by_cases hneg : n < 0
  · have hm : n.natAbs ≠ 0 := by omega
    obtain ⟨d, t, hdt, hdd, hd0⟩ := hnz hm
    have hir : (intRepr n).data = '-' :: (natRepr n.natAbs).data := by
      simp [intRepr, hneg]
    have hI : headIsUpperI ((natRepr n.natAbs).data ++ rest) = false := by
      rw [hdt]
      simp only [headIsUpperI, List.cons_append]
      exact decide_eq_false (digit_ne d hdd 'I' (by decide))
    have h' : skipWsC l0 = '-' :: ((natRepr n.natAbs).data ++ rest) := by
      rw [h, hir]; rfl
    rw [parseRec_pv_num f l0 '-' _ h' (Or.inl ⟨rfl, hI⟩),
      show ('-' :: ((natRepr n.natAbs).data ++ rest)) = ((intRepr n).data ++ rest) from by
        rw [hir]; rfl]
    exact parseNumberCore_int n rest hrest
  · have hir : (intRepr n).data = (natRepr n.natAbs).data := by simp [intRepr, hneg]
    by_cases hm : n.natAbs = 0
    · have hd0 : (natRepr n.natAbs).data = ['0'] := hz hm
      have h' : skipWsC l0 = '0' :: rest := by rw [h, hir, hd0]; rfl
      rw [parseRec_pv_num f l0 '0' rest h' (Or.inr (by decide)),
        show ('0' :: rest) = ((intRepr n).data ++ rest) from by rw [hir, hd0]; rfl]
      exact parseNumberCore_int n rest hrest
    · obtain ⟨d, t, hdt, hdd, hd0⟩ := hnz hm
      have h' : skipWsC l0 = d :: (t ++ rest) := by rw [h, hir, hdt]; rfl
      rw [parseRec_pv_num f l0 d _ h' (Or.inr hdd),
        show (d :: (t ++ rest)) = ((intRepr n).data ++ rest) from by rw [hir, hdt]; rfl]
      exact parseNumberCore_int n rest hrest

/-- Value parse of a dumped float literal. -/
lemma parseRec_pv_float (f : Nat) (r : String) (rest l0 : List Char)
    (hfl : FloatLit r.data) (h : skipWsC l0 = r.data ++ rest) (hrest : numSafe rest) :
    parseRec (f + 1) PMode.pv l0 = some (.jfloat r, rest) := by
  have hcore := parseNumberCore_float r.data rest hfl hrest
  rw [stringMk_data] at hcore
  obtain ⟨sgn, ip, fp, ep, hsh, hip, hfp, hep, hone⟩ := hfl
  obtain ⟨d, t, hipdt, hdd⟩ := intPartShape_head ip hip
  cases sgn with
  | false =>
    have h' : skipWsC l0 = d :: (t ++ (fp ++ (ep ++ rest))) := by
      rw [h, hsh, hipdt]; simp
    rw [parseRec_pv_num f l0 d _ h' (Or.inr hdd),
      show (d :: (t ++ (fp ++ (ep ++ rest)))) = (r.data ++ rest) from by
        rw [hsh, hipdt]; simp]
    exact hcore
  | true =>
    have hI : headIsUpperI (ip ++ (fp ++ (ep ++ rest))) = false := by
      rw [hipdt]
      simp only [headIsUpperI, List.cons_append]
      exact decide_eq_false (digit_ne d hdd 'I' (by decide))
    have h' : skipWsC l0 = '-' :: (ip ++ (fp ++ (ep ++ rest))) := by
      rw [h, hsh]; simp
    rw [parseRec_pv_num f l0 '-' _ h' (Or.inl ⟨rfl, hI⟩),
      show ('-' :: (ip ++ (fp ++ (ep ++ rest)))) = (r.data ++ rest) from by
        rw [hsh]; simp]
    exact hcore

/-- Value parse of a dumped string. -/
lemma parseRec_pv_str (f : Nat) (s : String) (rest l0 : List Char)
    (h : skipWsC l0 = dumpsStr s ++ rest) :
    parseRec (f + 1) PMode.pv l0 = some (.jstr s, rest) := by
  have h' : skipWsC l0 = '"' :: (escList s.data ++ '"' :: rest) := by
    rw [h]; simp [dumpsStr]
  simp only [parseRec, h']
  rw [if_pos trivial, parseStr_escList s.data rest _ (by simp)]

/-- Every dumped well-formed value starts with a character that is not
whitespace and is not a closing bracket or brace. -/
lemma dumpsV_head (v : JVal) (hwf : WF v) :
    ∃ c cs, dumpsV v = c :: cs ∧ isJsonWsC c = false ∧ c ≠ closeBraceC ∧ c ≠ ']' := by
  cases v with
  | jstr s => exact ⟨'"', _, rfl, by decide, by decide, by decide⟩
  | jint n =>
    obtain ⟨hall, hval, hne, hz, hnz⟩ := natRepr_spec n.natAbs
    by_cases hneg : n < 0
    · have hir : (intRepr n).data = '-' :: (natRepr n.natAbs).data := by
        simp [intRepr, hneg]
      exact ⟨'-', _, hir, by decide, by decide, by decide⟩
    · have hir : (intRepr n).data = (natRepr n.natAbs).data := by simp [intRepr, hneg]
      by_cases hm : n.natAbs = 0
      · refine ⟨'0', [], ?_, by decide, by decide, by decide⟩
        rw [show dumpsV (.jint n) = (intRepr n).data from rfl, hir, hz hm]
      · obtain ⟨d, t, hdt, hdd, _⟩ := hnz hm
        refine ⟨d, t, ?_, digit_not_jsonWs d hdd, digit_ne d hdd _ (by decide),
          digit_ne d hdd _ (by decide)⟩
        rw [show dumpsV (.jint n) = (intRepr n).data from rfl, hir, hdt]
  | jfloat r =>
    have hfl : FloatLit r.data := hwf
    obtain ⟨sgn, ip, fp, ep, hsh, hip, hfp, hep, hone⟩ := hfl
    obtain ⟨d, t, hipdt, hdd⟩ := intPartShape_head ip hip
    cases sgn with
    | false =>
      refine ⟨d, t ++ (fp ++ ep), ?_, digit_not_jsonWs d hdd,
        digit_ne d hdd _ (by decide), digit_ne d hdd _ (by decide)⟩
      rw [show dumpsV (.jfloat r) = r.data from rfl, hsh, hipdt]; simp
    | true =>
      refine ⟨'-', ip ++ (fp ++ ep), ?_, by decide, by decide, by decide⟩
      rw [show dumpsV (.jfloat r) = r.data from rfl, hsh]; simp
  | jbool b => cases b <;> exact ⟨_, _, rfl, by decide, by decide, by decide⟩
  | jnull => exact ⟨'n', _, rfl, by decide, by decide, by decide⟩
  | jarr xs => exact ⟨'[', _, rfl, by decide, by decide, by decide⟩
  | jobj fs => exact ⟨openBraceC, _, rfl, by decide, by decide, by decide⟩

/-- A dumped value is never empty. -/
lemma dumpsV_length_pos (v : JVal) (hwf : WF v) : 0 < (dumpsV v).length := by
  obtain ⟨c, cs, hc, _⟩ := dumpsV_head v hwf
  rw [hc]; simp

/-- No whitespace to skip in front of a dumped value. -/
lemma skipWsC_dumpsV (v : JVal) (hwf : WF v) (A : List Char) :
    skipWsC (dumpsV v ++ A) = dumpsV v ++ A := by
  obtain ⟨c, cs, hc, hws, _, _⟩ := dumpsV_head v hwf
  rw [hc, List.cons_append, skipWsC_cons_false c _ hws]

/-- Head shape of the dumped elements of a nonempty array. -/
lemma dumpsElems_cons (v : JVal) (t' : List JVal) (hwf : WF v) :
    ∃ c cs, dumpsElems (v :: t') = c :: cs ∧ isJsonWsC c = false ∧
      c ≠ ']' ∧ c ≠ closeBraceC := by
  obtain ⟨c, cs, hc, hws, hbr, hsq⟩ := dumpsV_head v hwf
  cases t' with
  | nil => exact ⟨c, cs, by simp [dumpsElems, hc], hws, hsq, hbr⟩
  | cons w t'' =>
    exact ⟨c, cs ++ ',' :: ' ' :: dumpsElems (w :: t''),
      by simp [dumpsElems, hc], hws, hsq, hbr⟩

/-- Dumped members of a single-field object, in head-normal form. -/
lemma dumpsFields_single (k : String) (v : JVal) :
    dumpsFields [(k, v)] = '"' :: (escList k.data ++ '"' :: (':' :: ' ' :: dumpsV v)) := by
  simp [dumpsFields, dumpsStr]

/-- Dumped members of a multi-field object, in head-normal form. -/
lemma dumpsFields_cons2 (k : String) (v : JVal) (p : String × JVal)
    (t'' : List (String × JVal)) :
    dumpsFields ((k, v) :: p :: t'')
      = '"' :: (escList k.data ++ '"' :: (':' :: ' ' ::
          (dumpsV v ++ ',' :: ' ' :: dumpsFields (p :: t'')))) := by
  simp [dumpsFields, dumpsStr]

/-- Inserting a key not already present appends the binding. -/
lemma dictInsert_notMem (acc : List (String × JVal)) (k : String) (v : JVal)
    (hfresh : ∀ p ∈ acc, p.1 ≠ k) :
    dictInsert acc k v = acc ++ [(k, v)] := by
  have hany : acc.any (fun p => p.1 == k) = false := by
    rw [List.any_eq_false]
    intro p hp
    simpa using hfresh p hp
  simp [dictInsert, hany]

/-- A cons list with a harmless head is a safe continuation for a number. -/
lemma numSafe_cons (c : Char) (l : List Char) (h1 : isDigitC c = false)
    (h2 : c ≠ '.') (h3 : c ≠ 'e') (h4 : c ≠ 'E') : numSafe (c :: l) := by
  intro d hd
  simp only [List.head?_cons, Option.mem_def, Option.some.injEq] at hd
  subst hd
  exact ⟨h1, h2, h3, h4⟩

/-- The empty list is a safe continuation for a number. -/
lemma numSafe_nil : numSafe ([] : List Char) := by
  intro d hd
  simp at hd

/-- No whitespace to skip in front of dumped object members. -/
lemma skipWsC_dumpsFields (k : String) (v : JVal) (t' : List (String × JVal))
    (B : List Char) :
    skipWsC (dumpsFields ((k, v) :: t') ++ B) = dumpsFields ((k, v) :: t') ++ B := by
  cases t' with
  | nil => rw [dumpsFields_single, List.cons_append, skipWsC_cons_false _ _ (by decide)]
  | cons p t'' =>
    rw [dumpsFields_cons2, List.cons_append, skipWsC_cons_false _ _ (by decide)]

/-- No whitespace to skip in front of dumped array elements. -/
lemma skipWsC_dumpsElems (v : JVal) (t' : List JVal) (hwf : WF v) (B : List Char) :
    skipWsC (dumpsElems (v :: t') ++ B) = dumpsElems (v :: t') ++ B := by
  obtain ⟨c, cs, hc, hws, _, _⟩ := dumpsElems_cons v t' hwf
  rw [hc, List.cons_append, skipWsC_cons_false c _ hws]

/-- Dumped members of a nonempty object start with a quote. -/
lemma dumpsFields_head (k : String) (w : JVal) (t' : List (String × JVal)) :
    ∃ Y, dumpsFields ((k, w) :: t') = '"' :: Y := by
  cases t' with
  | nil => exact ⟨_, dumpsFields_single k w⟩
  | cons p t'' => exact ⟨_, dumpsFields_cons2 k w p t''⟩

/-- Value parse of an empty object literal. -/
lemma parseRec_pv_brace_empty (f : Nat) (rest l0 : List Char)
    (h : skipWsC l0 = openBraceC :: (closeBraceC :: rest)) :
    parseRec (f + 1) PMode.pv l0 = some (.jobj [], rest) := by
  rw [parseRec_pv_skipWsC, h]
  rfl

/-- Value parse at an opening brace with a nonempty body hands off to
member mode. -/
lemma parseRec_pv_brace_nonempty (f : Nat) (c : Char) (Y l0 : List Char)
    (h : skipWsC l0 = openBraceC :: (c :: Y))
    (hws : isJsonWsC c = false) (hc : c ≠ closeBraceC) :
    parseRec (f + 1) PMode.pv l0 = parseRec f (PMode.pm []) (c :: Y) := by
  rw [parseRec_pv_skipWsC, h]
  have hstep : parseRec (f + 1) PMode.pv (openBraceC :: (c :: Y))
      = (match skipWsC (c :: Y) with
         | d :: t2 => if d = closeBraceC then some (JVal.jobj [], t2)
             else parseRec f (PMode.pm []) (skipWsC (c :: Y))
         | [] => none) := rfl
  rw [hstep, skipWsC_cons_false c Y hws]
  show (if c = closeBraceC then some (JVal.jobj [], Y)
      else parseRec f (PMode.pm []) (c :: Y)) = parseRec f (PMode.pm []) (c :: Y)
  rw [if_neg hc]

/-- Value parse of an empty array literal. -/
lemma parseRec_pv_bracket_empty (f : Nat) (rest l0 : List Char)
    (h : skipWsC l0 = '[' :: (']' :: rest)) :
    parseRec (f + 1) PMode.pv l0 = some (.jarr [], rest) := by
  rw [parseRec_pv_skipWsC, h]
  rfl

/-- Value parse at an opening bracket with a nonempty body hands off to
element mode. -/
lemma parseRec_pv_bracket_nonempty (f : Nat) (c : Char) (Y l0 : List Char)
    (h : skipWsC l0 = '[' :: (c :: Y))
    (hws : isJsonWsC c = false) (hc : c ≠ ']') :
    parseRec (f + 1) PMode.pv l0 = parseRec f (PMode.pe []) (c :: Y) := by
  rw [parseRec_pv_skipWsC, h]
  have hstep : parseRec (f + 1) PMode.pv ('[' :: (c :: Y))
      = (match skipWsC (c :: Y) with
         | d :: t2 => if d = ']' then some (JVal.jarr [], t2)
             else parseRec f (PMode.pe []) (skipWsC (c :: Y))
         | [] => none) := rfl
  rw [hstep, skipWsC_cons_false c Y hws]
  show (if c = ']' then some (JVal.jarr [], Y)
      else parseRec f (PMode.pe []) (c :: Y)) = parseRec f (PMode.pe []) (c :: Y)
  rw [if_neg hc]

/-- One member-mode step over a dumped key and its value. -/
lemma parseRec_pm_step (f : Nat) (acc : List (String × JVal)) (k : String)
    (X : List Char) :
    parseRec (f + 1) (PMode.pm acc) ('"' :: (escList k.data ++ '"' :: (':' :: ' ' :: X)))
      = (match parseRec f PMode.pv (' ' :: X) with
         | some (v, r4) =>
           (match skipWsC r4 with
            | ',' :: r6 => parseRec f (PMode.pm (dictInsert acc k v)) (skipWsC r6)
            | d :: r6 =>
              if d = closeBraceC then some (.jobj (dictInsert acc k v), r6) else none
            | [] => none)
         | none => none) := by
  simp only [parseRec]
  rw [if_pos (by trivial),
    parseStr_escList k.data (':' :: ' ' :: X) _ (by simp)]
  rfl

/-- One element-mode step. -/
lemma parseRec_pe_step (f : Nat) (acc : List JVal) (l : List Char) :
    parseRec (f + 1) (PMode.pe acc) l
      = (match parseRec f PMode.pv l with
         | some (v, r) =>
           (match skipWsC r with
            | ',' :: r3 => parseRec f (PMode.pe (acc ++ [v])) r3
            | c :: r3 => if c = ']' then some (.jarr (acc ++ [v]), r3) else none
            | [] => none)
         | none => none) := rfl

/-- Round trip of the scanner over dumped values (mode pv), dumped object
members (mode pm), and dumped array elements (mode pe), by strong
induction on the fuel. -/
lemma parseRec_dumps : ∀ g : Nat,
    (∀ (v : JVal) (rest l0 : List Char), WF v → (dumpsV v).length ≤ g →
      numSafe rest → skipWsC l0 = dumpsV v ++ rest →
      parseRec g PMode.pv l0 = some (v, rest)) ∧
    (∀ (fs acc : List (String × JVal)) (rest : List Char),
      fs ≠ [] → WFfields fs → ((acc ++ fs).map Prod.fst).Nodup →
      (dumpsFields fs).length + 1 ≤ g →
      parseRec g (PMode.pm acc) (dumpsFields fs ++ closeBraceC :: rest)
        = some (.jobj (acc ++ fs), rest)) ∧
    (∀ (xs acc : List JVal) (rest l0 : List Char),
      xs ≠ [] → WFelems xs → (dumpsElems xs).length + 1 ≤ g →
      skipWsC l0 = dumpsElems xs ++ ']' :: rest →
      parseRec g (PMode.pe acc) l0 = some (.jarr (acc ++ xs), rest)) := by
  intro g
  induction g using Nat.strong_induction_on with
  | _ g ih =>
  cases g with
  | zero =>
    refine ⟨?_, ?_, ?_⟩
    · intro v rest l0 hwf hlen hns h
      exact absurd hlen (by have := dumpsV_length_pos v hwf; omega)
    · intro fs acc rest hne hwff hnd hlen
      exact absurd hlen (by omega)
    · intro xs acc rest l0 hne hwfe hlen h
      exact absurd hlen (by omega)
  | succ f =>
    obtain ⟨ihv, ihm, ihe⟩ := ih f (Nat.lt_succ_self f)
    refine ⟨?_, ?_, ?_⟩
    · -- pv: one dumped value
      intro v rest l0 hwf hlen hns h
      cases v with
      | jstr s => exact parseRec_pv_str f s rest l0 h
      | jint n => exact parseRec_pv_int f n rest l0 h hns
      | jfloat r => exact parseRec_pv_float f r rest l0 hwf h hns
      | jbool b =>
        cases b with
        | true => exact parseRec_pv_true f rest l0 h
        | false => exact parseRec_pv_false f rest l0 h
      | jnull => exact parseRec_pv_null f rest l0 h
      | jobj fs =>
        obtain ⟨hnd0, hwff0⟩ := hwf
        cases fs with
        | nil =>
          exact parseRec_pv_brace_empty f rest l0 (by rw [h]; rfl)
        | cons kv t' =>
          obtain ⟨k, w⟩ := kv
          obtain ⟨Y, hY⟩ := dumpsFields_head k w t'
          have hT : skipWsC l0 = openBraceC :: ('"' :: (Y ++ closeBraceC :: rest)) := by
            rw [h]
            simp [dumpsV, hY]
          rw [parseRec_pv_brace_nonempty f '"' (Y ++ closeBraceC :: rest) l0 hT
              (by decide) (by decide),
            show ('"' :: (Y ++ closeBraceC :: rest))
                = dumpsFields ((k, w) :: t') ++ closeBraceC :: rest from by rw [hY]; rfl]
          have hlenF : (dumpsFields ((k, w) :: t')).length + 1 ≤ f := by
            have h2 : (dumpsV (.jobj ((k, w) :: t'))).length
                = (dumpsFields ((k, w) :: t')).length + 2 := by
              simp only [dumpsV, List.length_cons, List.length_append, List.length_nil]
            omega
          have := ihm ((k, w) :: t') [] rest (by simp) hwff0 (by simpa using hnd0) hlenF
          simpa using this
      | jarr xs =>
        cases xs with
        | nil =>
          exact parseRec_pv_bracket_empty f rest l0 (by rw [h]; rfl)
        | cons w t' =>
          have hwfe : WFelems (w :: t') := hwf
          obtain ⟨c, cs, hc, hws, hsq, hbr⟩ := dumpsElems_cons w t' hwfe.1
          have hT : skipWsC l0 = '[' :: (c :: (cs ++ ']' :: rest)) := by
            rw [h]
            simp [dumpsV, hc]
          rw [parseRec_pv_bracket_nonempty f c (cs ++ ']' :: rest) l0 hT hws hsq,
            show (c :: (cs ++ ']' :: rest)) = dumpsElems (w :: t') ++ ']' :: rest from by
              rw [hc]; rfl]
          have hlenE : (dumpsElems (w :: t')).length + 1 ≤ f := by
            have h2 : (dumpsV (.jarr (w :: t'))).length
                = (dumpsElems (w :: t')).length + 2 := by
              simp only [dumpsV, List.length_cons, List.length_append, List.length_nil]
            omega
          have := ihe (w :: t') [] rest (dumpsElems (w :: t') ++ ']' :: rest)
            (by simp) hwfe hlenE (skipWsC_dumpsElems w t' hwfe.1 (']' :: rest))
          simpa using this
    · -- pm: dumped members
      intro fs acc rest hne hwff hnd hlen
      cases fs with
      | nil => exact absurd rfl hne
      | cons kv t' =>
        obtain ⟨k, w⟩ := kv
        have hwfw : WF w := hwff.1
        have hwft : WFfields t' := hwff.2
        have hfresh : ∀ q ∈ acc, q.1 ≠ k := by
          intro q hq hqk
          rw [List.map_append, List.nodup_append] at hnd
          exact hnd.2.2 (List.mem_map_of_mem Prod.fst hq) (by rw [hqk]; simp)
        cases t' with
        | nil =>
          have hlen1 : (dumpsFields [(k, w)]).length
              = (escList k.data).length + ((dumpsV w).length + 4) := by
            rw [dumpsFields_single]
            simp only [List.length_cons, List.length_append]
            omega
          have hform : dumpsFields [(k, w)] ++ closeBraceC :: rest
              = '"' :: (escList k.data ++ '"' :: (':' :: ' ' ::
                  (dumpsV w ++ closeBraceC :: rest))) := by
            rw [dumpsFields_single]
            simp
          rw [hform, parseRec_pm_step f acc k (dumpsV w ++ closeBraceC :: rest)]
          have hpv : parseRec f PMode.pv (' ' :: (dumpsV w ++ closeBraceC :: rest))
              = some (w, closeBraceC :: rest) := by
            apply ihv w (closeBraceC :: rest) _ hwfw (by omega)
              (numSafe_cons _ _ (by decide) (by decide) (by decide) (by decide))
            rw [skipWsC_cons_true ' ' _ (by decide)]
            exact skipWsC_dumpsV w hwfw _
          simp only [hpv]
          rw [skipWsC_cons_false _ _ (by decide), dictInsert_notMem acc k w hfresh]
          rfl
        | cons p t'' =>
          have hlen2 : (dumpsFields ((k, w) :: p :: t'')).length
              = (escList k.data).length + (dumpsV w).length
                + (dumpsFields (p :: t'')).length + 6 := by
            rw [dumpsFields_cons2]
            simp only [List.length_cons, List.length_append]
            omega
          have hform : dumpsFields ((k, w) :: p :: t'') ++ closeBraceC :: rest
              = '"' :: (escList k.data ++ '"' :: (':' :: ' ' ::
                  (dumpsV w ++ ',' :: ' ' ::
                    (dumpsFields (p :: t'') ++ closeBraceC :: rest)))) := by
            rw [dumpsFields_cons2]
            simp
          rw [hform, parseRec_pm_step f acc k
            (dumpsV w ++ ',' :: ' ' :: (dumpsFields (p :: t'') ++ closeBraceC :: rest))]
          have hpv : parseRec f PMode.pv
              (' ' :: (dumpsV w ++ ',' :: ' ' ::
                (dumpsFields (p :: t'') ++ closeBraceC :: rest)))
              = some (w, ',' :: ' ' :: (dumpsFields (p :: t'') ++ closeBraceC :: rest)) := by
            apply ihv w _ _ hwfw (by omega)
              (numSafe_cons _ _ (by decide) (by decide) (by decide) (by decide))
            rw [skipWsC_cons_true ' ' _ (by decide)]
            exact skipWsC_dumpsV w hwfw _
          simp only [hpv]
          rw [dictInsert_notMem acc k w hfresh]
          show parseRec f (PMode.pm (acc ++ [(k, w)]))
              (skipWsC (' ' :: (dumpsFields (p :: t'') ++ closeBraceC :: rest)))
            = some (JVal.jobj (acc ++ (k, w) :: p :: t''), rest)
          rw [skipWsC_cons_true ' ' _ (by decide),
            skipWsC_dumpsFields _ _ _ _]
          have := ihm (p :: t'') (acc ++ [(k, w)]) rest (by simp) hwft
            (by simpa [List.append_assoc] using hnd) (by omega)
          simpa [List.append_assoc] using this
    · -- pe: dumped elements
      intro xs acc rest l0 hne hwfe hlen h
      cases xs with
      | nil => exact absurd rfl hne
      | cons v t' =>
        have hwfv : WF v := hwfe.1
        have hwft : WFelems t' := hwfe.2
        rw [parseRec_pe_step f acc l0]
        cases t' with
        | nil =>
          have hpv : parseRec f PMode.pv l0 = some (v, ']' :: rest) := by
            have h2 : dumpsElems [v] = dumpsV v := rfl
            rw [h2] at hlen
            apply ihv v (']' :: rest) l0 hwfv (by omega)
              (numSafe_cons _ _ (by decide) (by decide) (by decide) (by decide))
            rw [h, h2]
          simp only [hpv]
          rw [skipWsC_cons_false ']' _ (by decide)]
          rfl
        | cons w t'' =>
          have hsplit : dumpsElems (v :: w :: t'') ++ ']' :: rest
              = dumpsV v ++ (',' :: ' ' :: (dumpsElems (w :: t'') ++ ']' :: rest)) := by
            show (dumpsV v ++ ',' :: ' ' :: dumpsElems (w :: t'')) ++ ']' :: rest = _
            simp
          have hlenS : (dumpsElems (v :: w :: t'')).length
              = (dumpsV v).length + (dumpsElems (w :: t'')).length + 2 := by
            show (dumpsV v ++ ',' :: ' ' :: dumpsElems (w :: t'')).length = _
            simp only [List.length_cons, List.length_append]
            omega
          have hpv : parseRec f PMode.pv l0
              = some (v, ',' :: ' ' :: (dumpsElems (w :: t'') ++ ']' :: rest)) := by
            apply ihv v _ l0 hwfv (by have := dumpsV_length_pos v hwfv; omega)
              (numSafe_cons _ _ (by decide) (by decide) (by decide) (by decide))
            rw [h, hsplit]
          simp only [hpv]
          show parseRec f (PMode.pe (acc ++ [v]))
              (' ' :: (dumpsElems (w :: t'') ++ ']' :: rest))
            = some (JVal.jarr (acc ++ v :: w :: t''), rest)
          have := ihe (w :: t'') (acc ++ [v]) rest
            (' ' :: (dumpsElems (w :: t'') ++ ']' :: rest)) (by simp) hwft
            (by have := dumpsV_length_pos v hwfv; omega)
            (by rw [skipWsC_cons_true ' ' _ (by decide)]
                exact skipWsC_dumpsElems w t'' hwft.1 _)
          simpa [List.append_assoc] using this

/-- The JSON loader reads back any dumped well-formed value. -/
lemma jsonLoads_dumps (v : JVal) (hwf : WF v) :
    jsonLoads (String.mk (dumpsV v)) = some v := by
  have hpv : parseRec ((dumpsV v).length + 1) PMode.pv (dumpsV v) = some (v, []) := by
    apply (parseRec_dumps ((dumpsV v).length + 1)).1 v [] (dumpsV v) hwf (by omega)
      numSafe_nil
    have hsk := skipWsC_dumpsV v hwf []
    rw [List.append_nil] at hsk
    rw [List.append_nil]
    exact hsk
  show (match parseRec ((dumpsV v).length + 1) PMode.pv (dumpsV v) with
        | some (w, rest) => if skipWsC rest = [] then some w else none
        | none => none) = some v
  rw [hpv]
  rfl

/-- Dropping while a predicate holds skips a prefix on which it holds
everywhere. -/
lemma dropWhile_all_append (p : Char → Bool) (w X : List Char)
    (hw : ∀ c ∈ w, p c = true) : (w ++ X).dropWhile p = X.dropWhile p := by
  induction w with
  | nil => rfl
  | cons c t ihw =>
    rw [List.cons_append, List.dropWhile_cons, hw c (by simp), if_pos rfl]
    exact ihw (fun d hd => hw d (by simp [hd]))

/-- Stripping removes exactly the all-whitespace sandwich around a text
that starts and ends with non-whitespace. -/
lemma pyStripL_sandwich (w1 w2 Y : List Char) (a b : Char)
    (h1 : ∀ x ∈ w1, isPyWs x = true) (h2 : ∀ x ∈ w2, isPyWs x = true)
    (ha : isPyWs a = false) (hb : isPyWs b = false) :
    pyStripL (w1 ++ (a :: (Y ++ [b])) ++ w2) = a :: (Y ++ [b]) := by
  unfold pyStripL trimLeadC trimTrailC
  rw [List.append_assoc, dropWhile_all_append _ w1 _ h1,
    show ((a :: (Y ++ [b])) ++ w2) = a :: (Y ++ [b] ++ w2) from by simp,
    List.dropWhile_cons, ha]
  rw [if_neg (by simp)]
  rw [show (a :: (Y ++ [b] ++ w2)).reverse = w2.reverse ++ (b :: (Y.reverse ++ [a])) from by
      simp]
  rw [dropWhile_all_append _ w2.reverse _ (fun x hx => h2 x (by simpa using hx)),
    List.dropWhile_cons, hb]
  rw [if_neg (by simp)]
  simp

/-- Claim C2: for every input string that is exactly the serialization of
a JSON object (a mapping), possibly with surrounding Python whitespace,
`parse_json_response` returns exactly that mapping.  The serialization is
`json.dumps` with default separators, modelled by `dumpsV`; well-formedness
asks that float values carry valid literals and objects have distinct
keys, which is what makes them serializations of Python dicts. -/
theorem claim2_round_trip (m : List (String × JVal)) (w1 w2 : String)
    (hwf : WF (JVal.jobj m))
    (h1 : ∀ c ∈ w1.data, isPyWs c = true) (h2 : ∀ c ∈ w2.data, isPyWs c = true) :
    parse_json_response (w1 ++ String.mk (dumpsV (JVal.jobj m)) ++ w2) = some m := by
  have hDshape : dumpsV (JVal.jobj m) = openBraceC :: (dumpsFields m ++ [closeBraceC]) := rfl
  have hdata : (w1 ++ String.mk (dumpsV (JVal.jobj m)) ++ w2).data
      = w1.data ++ (openBraceC :: (dumpsFields m ++ [closeBraceC])) ++ w2.data := by
    rw [String.data_append, String.data_append]
    rfl
  have hne : (w1 ++ String.mk (dumpsV (JVal.jobj m)) ++ w2) ≠ "" := by
    intro hq
    have hempty : (w1 ++ String.mk (dumpsV (JVal.jobj m)) ++ w2).data = [] := by
      rw [hq]
    rw [hdata] at hempty
    simp at hempty
  have hstrip : pyStrip (w1 ++ String.mk (dumpsV (JVal.jobj m)) ++ w2)
      = String.mk (dumpsV (JVal.jobj m)) := by
    unfold pyStrip
    refine congrArg String.mk ?_
    rw [hdata, pyStripL_sandwich w1.data w2.data (dumpsFields m) openBraceC closeBraceC
      h1 h2 (by decide) (by decide)]
    exact hDshape.symm
  simp only [parse_json_response]
  rw [if_neg hne, hstrip, jsonLoads_dumps (JVal.jobj m) hwf]
  rfl

/-- The round trip at a concrete two-field object surrounded by a space
and a newline. -/
theorem claim2_witness :
    parse_json_response
        (" " ++ String.mk (dumpsV (JVal.jobj [("a", JVal.jstr "1"), ("b", JVal.jint 2)])) ++ "\n")
      = some [("a", JVal.jstr "1"), ("b", JVal.jint 2)] :=
  claim2_round_trip [("a", JVal.jstr "1"), ("b", JVal.jint 2)] " " "\n"
    ⟨by decide, trivial, trivial, trivial⟩ (by decide) (by decide)

end PyBench
